import Mathlib

/-!
Verification of the nginx-block-manager core: the block-document model, the
editor operations of `src/NginxBlockManager.ts`, and the parse/serialize
layer specified in spec.md §4.1/§4.4/§6.

Strings of the TypeScript source are modelled as `List Char` (`Str`), so that
every definition is executable and every concrete computation can be checked
by the kernel.  The configuration tree is `Entry`: a directive (`key value;`)
or a block (`kind selector { children }`), exactly the node structure that the
nginx-conf library exposes to the manager (`server[key]`, `_value`, `_add`,
`_remove`).  A document is the list of top-level entries.

Editor operations are translated per-transaction: the manager reads a file,
parses it, mutates the tree through nginx-conf node operations, and flushes.
Each operation below is the tree transformation performed by one such
transaction, with the file I/O made explicit where a claim needs it.
-/

namespace NginxBM

set_option maxHeartbeats 1000000

abbrev Str := List Char

/-- Characters written via their code points to keep the development free of
brace and quote literals. -/
def quoteC : Char := Char.ofNat 34

def hashC : Char := Char.ofNat 35

def lbraceC : Char := Char.ofNat 123

def rbraceC : Char := Char.ofNat 125

/-- A node of the configuration tree: a `key value;` directive or a
`kind selector { children }` block.  nginx-conf represents both as items with
a `_value` (the directive value, resp. the block selector) and children. -/
inductive Entry where
  | directive (key value : Str)
  | block (kind selector : Str) (children : List Entry)

abbrev Doc := List Entry

def serverKind : Str := ['s', 'e', 'r', 'v', 'e', 'r']

def locationKind : Str := ['l', 'o', 'c', 'a', 't', 'i', 'o', 'n']

def serverNameKey : Str := ['s', 'e', 'r', 'v', 'e', 'r', '_', 'n', 'a', 'm', 'e']

/-- The name under which nginx-conf exposes a child: a directive's key, or a
block's kind (`server['location']` lists the location blocks). -/
def entryName : Entry → Str
  | .directive k _ => k
  | .block kind _ _ => kind

/-- `item._value`: a directive's value, or a block's selector. -/
def entryValue : Entry → Str
  | .directive _ v => v
  | .block _ sel _ => sel

/-- `item._value = v`: overwrite a directive's value, or a block's selector. -/
def setEntryValue : Entry → Str → Entry
  | .directive k _, v => .directive k v
  | .block kind _ ch, v => .block kind v ch

/-- `node[key] !== undefined`: some child with that name exists. -/
def hasName : List Entry → Str → Bool
  | [], _ => false
  | e :: es, k => if entryName e = k then true else hasName es k

/-- `node[key][0]._value`: the value of the first child with that name. -/
def getFirstValue : List Entry → Str → Option Str
  | [], _ => none
  | e :: es, k => if entryName e = k then some (entryValue e) else getFirstValue es k

/-- `node[key][0]._value = v`: rewrite the value of the first child with
that name. -/
def setFirstValue : List Entry → Str → Str → List Entry
  | [], _, _ => []
  | e :: es, k, v => if entryName e = k then setEntryValue e v :: es else e :: setFirstValue es k v

/-- `node._remove(key)`: remove the first child with that name. -/
def removeFirst : List Entry → Str → List Entry
  | [], _ => []
  | e :: es, k => if entryName e = k then es else e :: removeFirst es k

/-- The add-key callback body: `if (!keyExists) node._add(key, value)` —
append a new directive unless some child with that name exists. -/
def addIfAbsent (ch : List Entry) (k v : Str) : List Entry :=
  if hasName ch k then ch else ch ++ [.directive k v]

/-- `processServerBlock`: the callback is applied to every top-level
`server` block of the document, not only the first. -/
def onServers (doc : Doc) (f : List Entry → List Entry) : Doc :=
  doc.map fun e =>
    match e with
    | .block kind sel ch => if kind = serverKind then .block kind sel (f ch) else e
    | e => e

/-- Number of directive children with the given key. -/
def countDir : List Entry → Str → Nat
  | [], _ => 0
  | .directive k _ :: es, key => (if k = key then 1 else 0) + countDir es key
  | .block _ _ _ :: es, key => countDir es key

/-- Whether a child named `location` with the given `_value` exists. -/
def hasLocation : List Entry → Str → Bool
  | [], _ => false
  | e :: es, loc =>
    if entryName e = locationKind ∧ entryValue e = loc then true else hasLocation es loc

/-- Number of children named `location` whose `_value` is the given selector. -/
def countLocValue : List Entry → Str → Nat
  | [], _ => 0
  | e :: es, loc =>
    (if entryName e = locationKind ∧ entryValue e = loc then 1 else 0) + countLocValue es loc

/-- Total count of `location` children with the given selector over all
top-level `server` blocks. -/
def countLocDoc : Doc → Str → Nat
  | [], _ => 0
  | .block kind _ ch :: es, loc =>
    (if kind = serverKind then countLocValue ch loc else 0) + countLocDoc es loc
  | _ :: es, loc => countLocDoc es loc

/-- `conf.nginx.server[0]`: selector and children of the first top-level
server block. -/
def firstServer : Doc → Option (Str × List Entry)
  | [] => none
  | .block kind sel ch :: es => if kind = serverKind then some (sel, ch) else firstServer es
  | _ :: es => firstServer es

/-- Rewrite the children of the first top-level server block. -/
def mapFirstServer : Doc → (List Entry → List Entry) → Doc
  | [], _ => []
  | .block kind sel ch :: es, f =>
    if kind = serverKind then .block kind sel (f ch) :: es
    else .block kind sel ch :: mapFirstServer es f
  | e :: es, f => e :: mapFirstServer es f

/-- Errors thrown by the manager (each `throw new Error(...)` site). -/
inductive NbmError where
  | emptyKey
  | emptyLocation
  | duplicateLocation
  | duplicateSubdomain
  | subdomainNotFound
  | noServerBlock
  | emptyDomain
  | configExists
  | configMissing
  deriving DecidableEq

/-- `addKeyToServer`: reject a blank key, then for every server block append
`Directive key value` unless a child named `key` already exists. -/
def addKeyToServer (doc : Doc) (key value : Str) : Except NbmError Doc :=
  if key = [] then .error .emptyKey
  else .ok (onServers doc fun ch => addIfAbsent ch key value)

/-- `updateKeyInServer`: in every server block, if a child named `key`
exists, rewrite the `_value` of the first one; otherwise do nothing. -/
def updateKeyInServer (doc : Doc) (key newValue : Str) : Doc :=
  onServers doc fun ch => if hasName ch key then setFirstValue ch key newValue else ch

/-- `deleteKeyFromServer`: in every server block, remove the first child
named `key` when one exists. -/
def deleteKeyFromServer (doc : Doc) (key : Str) : Doc :=
  onServers doc fun ch => if hasName ch key then removeFirst ch key else ch

/-- `getKeyValueFromServer`: visit every server block; each block holding the
key overwrites the accumulator, so the last match in document order wins. -/
def getKeyValueFromServer (doc : Doc) (key : Str) : Option Str :=
  doc.foldl
    (fun acc e =>
      match e with
      | .block kind _ ch =>
        if kind = serverKind then
          match getFirstValue ch key with
          | some v => some v
          | none => acc
        else acc
      | _ => acc)
    none

/-- `addMultipleKeysToServer`: one pass over the tree applying the add-key
callback for each pair, in every server block.  No blank-key check. -/
def addMultipleKeysToServer (doc : Doc) (pairs : List (Str × Str)) : Doc :=
  onServers doc fun ch => pairs.foldl (fun ch p => addIfAbsent ch p.1 p.2) ch

/-- `updateMultipleKeysInServer`: apply the update callback per pair, in
every server block. -/
def updateMultipleKeysInServer (doc : Doc) (pairs : List (Str × Str)) : Doc :=
  onServers doc fun ch =>
    pairs.foldl (fun ch p => if hasName ch p.1 then setFirstValue ch p.1 p.2 else ch) ch

/-- `deleteMultipleKeysFromServer`: apply the remove callback per key, in
every server block. -/
def deleteMultipleKeysFromServer (doc : Doc) (keys : List Str) : Doc :=
  onServers doc fun ch => keys.foldl (fun ch k => if hasName ch k then removeFirst ch k else ch) ch

/-- `processLocationBlocks` specialised to callbacks that rewrite a location
block: the function is applied to every `location` block of every server
block (a directive child named `location` carries no nested children and is
left as-is, matching a tree in which only blocks have children). -/
def onLocations (doc : Doc) (f : Str → List Entry → Entry) : Doc :=
  onServers doc fun ch =>
    ch.map fun e =>
      match e with
      | .block kind sel ch2 => if kind = locationKind then f sel ch2 else e
      | e => e

/-- `addKeyToLocation`: in every location block whose `_value` equals
`location`, append `Directive key value` unless a child named `key` exists.
The source performs no blank-key check here, unlike `addKeyToServer`. -/
def addKeyToLocation (doc : Doc) (location key value : Str) : Doc :=
  onLocations doc fun sel ch2 =>
    if sel = location then .block locationKind sel (addIfAbsent ch2 key value)
    else .block locationKind sel ch2

/-- `updateLocation`: every child named `location` (of every server block)
whose `_value` equals `oldLocation` gets its `_value` set to `newLocation`;
no uniqueness re-check against existing siblings is performed. -/
def updateLocation (doc : Doc) (oldLocation newLocation : Str) : Doc :=
  onServers doc fun ch =>
    ch.map fun e =>
      if entryName e = locationKind ∧ entryValue e = oldLocation then setEntryValue e newLocation
      else e

/-- `addLocation`: reject a blank selector; reject a duplicate among the
`location` children of the first server block; otherwise append a fresh
location block there.  (The `_add('location', loc + brace-pair)` hack reads
back from the flushed file as an empty location block with that selector.
When no server block exists the source callback never resolves its promise;
that stuck transaction is modelled as `noServerBlock`.) -/
def addLocation (doc : Doc) (location : Str) : Except NbmError Doc :=
  if location = [] then .error .emptyLocation
  else
    match firstServer doc with
    | none => .error .noServerBlock
    | some (_, ch) =>
      if hasLocation ch location then .error .duplicateLocation
      else .ok (mapFirstServer doc fun ch => ch ++ [.block locationKind location []])

/-- JavaScript `s.split(' ')`: splitting the empty string yields `[""]`. -/
def splitSp : Str → List Str
  | [] => [[]]
  | c :: r =>
    match splitSp r with
    | [] => if c = ' ' then [[], []] else [[c]]
    | h :: t => if c = ' ' then [] :: h :: t else (c :: h) :: t

/-- JavaScript `list.join(' ')`. -/
def joinSp : List Str → Str
  | [] => []
  | [s] => s
  | s :: rest => s ++ ' ' :: joinSp rest

def memStr : List Str → Str → Bool
  | [], _ => false
  | s :: ss, x => if s = x then true else memStr ss x

/-- `indexOf` + `splice(index, 1)` under the guarantee that the element is
present: remove its first occurrence. -/
def removeFirstStr : List Str → Str → List Str
  | [], _ => []
  | s :: ss, x => if s = x then ss else s :: removeFirstStr ss x

/-- `getSubdomains`: split the (last-match) `server_name` value on spaces and
drop every token equal to the domain. -/
def getSubdomains (doc : Doc) (domain : Str) : List Str :=
  let subs :=
    match getKeyValueFromServer doc serverNameKey with
    | some s => splitSp s
    | none => []
  subs.filter fun x => decide (x ≠ domain)

/-- `checkSubdomainExists`: membership of `sub.domain` in the subdomain
list. -/
def checkSubdomainExists (doc : Doc) (domain sub : Str) : Bool :=
  memStr (getSubdomains doc domain) (sub ++ '.' :: domain)

/-- `addSubdomain`: fail on a duplicate, otherwise push `sub.domain` and
rewrite `server_name` to `domain ++ " " ++ join(subs)`. -/
def addSubdomain (doc : Doc) (domain sub : Str) : Except NbmError Doc :=
  if checkSubdomainExists doc domain sub then .error .duplicateSubdomain
  else
    let subs := getSubdomains doc domain ++ [sub ++ '.' :: domain]
    .ok (updateKeyInServer doc serverNameKey (domain ++ ' ' :: joinSp subs))

/-- `deleteSubdomain`: fail when absent, otherwise remove the exact token
from the space-split `server_name` value and rewrite it. -/
def deleteSubdomain (doc : Doc) (domain sub : Str) : Except NbmError Doc :=
  if checkSubdomainExists doc domain sub then
    let subdomains :=
      match getKeyValueFromServer doc serverNameKey with
      | some s => splitSp s
      | none => []
    .ok (updateKeyInServer doc serverNameKey
      (joinSp (removeFirstStr subdomains (sub ++ '.' :: domain))))
  else .error .subdomainNotFound

/-- `getConfigFileName`: `domain + ".conf"`. -/
def configFileName (domain : Str) : Str := domain ++ ['.', 'c', 'o', 'n', 'f']

/-- The sites-available directory as a name-to-content store. -/
abbrev FileStore := List (Str × Str)

def lookupFs : FileStore → Str → Option Str
  | [], _ => none
  | (n, c) :: fs, name => if n = name then some c else lookupFs fs name

/-- The template written by `createConfigFile` (lines 63-67 of the source):
no trailing newline after the closing brace, one blank line before it. -/
def configTemplate (domain : Str) : Str :=
  ['s', 'e', 'r', 'v', 'e', 'r', ' ', lbraceC, '\n',
   ' ', ' ', ' ', ' ', 'l', 'i', 's', 't', 'e', 'n', ' ', '8', '0', ';', '\n',
   ' ', ' ', ' ', ' '] ++ serverNameKey ++ (' ' :: domain) ++ [';', '\n', '\n', rbraceC]

/-- `createConfigFile`: reject an empty domain, reject an existing file,
otherwise write the minimal template. -/
def createConfigFile (fs : FileStore) (domain : Str) : Except NbmError FileStore :=
  if domain = [] then .error .emptyDomain
  else if (lookupFs fs (configFileName domain)).isSome then .error .configExists
  else .ok (fs ++ [(configFileName domain, configTemplate domain)])

/-- The enable/disable state: names present in sites-available and the
symlink names present in sites-enabled. -/
structure NState where
  avail : List Str
  enabled : List Str

/-- `checkConfigFileEnabled`: the symlink exists. -/
def checkConfigFileEnabled (st : NState) (domain : Str) : Bool :=
  memStr st.enabled (configFileName domain)

/-- `checkConfigFileExists`: the config file exists. -/
def checkConfigFileExists (st : NState) (domain : Str) : Bool :=
  memStr st.avail (configFileName domain)

/-- `enableConfigFile`: throw when the config file is missing; return with no
change when the symlink already exists; otherwise create the symlink. -/
def enableConfigFile (st : NState) (domain : Str) : Except NbmError NState :=
  if checkConfigFileExists st domain = false then .error .configMissing
  else if checkConfigFileEnabled st domain then .ok st
  else .ok ⟨st.avail, st.enabled ++ [configFileName domain]⟩

/-!
Parser and serializer.

Modelled from the spec: the manager delegates parsing and serialization to
the external nginx-conf dependency, which is not part of this repository, so
these definitions follow spec §4.1 (grammar, comment stripping, quoting),
§4.4 (canonical rendering: four-space indentation, `key value;`,
`kind selector` with an opening brace, quotes re-added only when the value
contains whitespace or a reserved character) and §6 (the ABNF-like text
grammar).  Comment stripping is a character-level pre-pass, so a `#` runs to
end of line wherever it appears; a value token is either a quoted run
(quotes stripped when stored) or a maximal run of characters that are not
whitespace, not a reserved character, and not a quote; a directive may carry
zero value tokens (its value is then empty); multi-token values and
selectors are stored space-joined.
-/

/-- Comment stripping as a character state machine: inside a comment, drop
characters up to (but not including) the terminating newline. -/
def stripCommentsGo : Bool → Str → Str
  | _, [] => []
  | true, c :: r =>
    if c = '\n' then c :: stripCommentsGo false r else stripCommentsGo true r
  | false, c :: r =>
    if c = hashC then stripCommentsGo true r else c :: stripCommentsGo false r

/-- Strip `#`-to-end-of-line comments before lexing. -/
def stripComments (s : Str) : Str := stripCommentsGo false s

def isWs (c : Char) : Bool :=
  c = ' ' || c = '\t' || c = '\n' || c = '\r'

/-- A character that may appear in an unquoted token. -/
def isWordChar (c : Char) : Bool :=
  !isWs c && !(c = ';') && !(c = lbraceC) && !(c = rbraceC) && !(c = quoteC)

/-- A lexical token: a word (with a flag recording whether it was quoted),
or one of the three reserved punctuation characters. -/
inductive Tok where
  | word (w : Str) (q : Bool)
  | semi
  | lbrace
  | rbrace

/-- Lexer state: between tokens, inside a quoted token, or inside an
unquoted token (accumulators are reversed). -/
inductive LexState where
  | main
  | quote (acc : Str)
  | word (acc : Str)

/-- The lexer: whitespace separates tokens, the reserved characters are
tokens of their own, a quote starts a quoted token running to the closing
quote (unterminated quotes are fatal). -/
def lexGo : LexState → Str → Option (List Tok)
  | .main, [] => some []
  | .quote _, [] => none
  | .word acc, [] => some [Tok.word acc.reverse false]
  | .main, c :: r =>
    if isWs c then lexGo .main r
    else if c = ';' then Option.map (Tok.semi :: ·) (lexGo .main r)
    else if c = lbraceC then Option.map (Tok.lbrace :: ·) (lexGo .main r)
    else if c = rbraceC then Option.map (Tok.rbrace :: ·) (lexGo .main r)
    else if c = quoteC then lexGo (.quote []) r
    else lexGo (.word [c]) r
  | .quote acc, c :: r =>
    if c = quoteC then Option.map (Tok.word acc.reverse true :: ·) (lexGo .main r)
    else lexGo (.quote (c :: acc)) r
  | .word acc, c :: r =>
    if isWordChar c then lexGo (.word (c :: acc)) r
    else if isWs c then Option.map (Tok.word acc.reverse false :: ·) (lexGo .main r)
    else if c = ';' then Option.map (fun l => Tok.word acc.reverse false :: Tok.semi :: l) (lexGo .main r)
    else if c = lbraceC then Option.map (fun l => Tok.word acc.reverse false :: Tok.lbrace :: l) (lexGo .main r)
    else if c = rbraceC then Option.map (fun l => Tok.word acc.reverse false :: Tok.rbrace :: l) (lexGo .main r)
    else Option.map (Tok.word acc.reverse false :: ·) (lexGo (.quote []) r)

/-- Collect the maximal run of word tokens: the value tokens of a directive
or the selector tokens of a block header. -/
def collectWords : List Tok → List Str × List Tok
  | Tok.word w _ :: rest =>
    let p := collectWords rest
    (w :: p.1, p.2)
  | toks => ([], toks)

/-- The token parser (fuel-indexed so that it is structurally recursive; the
fuel used by `parse` always suffices).  A statement starts with an unquoted
word; the words that follow are its value (terminator `;`) or its selector
(terminator an opening brace, with the matching closing brace required after
the children).  A closing brace ends the current child list; everything else
is a parse error. -/
def parseEntries : Nat → List Tok → Option (List Entry × List Tok)
  | 0, _ => none
  | _ + 1, [] => some ([], [])
  | _ + 1, Tok.rbrace :: rest => some ([], Tok.rbrace :: rest)
  | n + 1, Tok.word k false :: rest =>
    match collectWords rest with
    | (ws, Tok.semi :: rest2) =>
      match parseEntries n rest2 with
      | some (es, r) => some (Entry.directive k (joinSp ws) :: es, r)
      | none => none
    | (ws, Tok.lbrace :: rest2) =>
      match parseEntries n rest2 with
      | some (ch, Tok.rbrace :: rest3) =>
        match parseEntries n rest3 with
        | some (es, r) => some (Entry.block k (joinSp ws) ch :: es, r)
        | none => none
      | _ => none
    | _ => none
  | _ + 1, _ => none

/-- `parse`: strip comments, lex, parse; the whole input must be consumed
(a leftover closing brace is an unmatched-brace error). -/
def parse (text : Str) : Option Doc :=
  match lexGo .main (stripComments text) with
  | none => none
  | some toks =>
    match parseEntries (toks.length + 1) toks with
    | some (es, []) => some es
    | _ => none

/-- Whether the serializer must re-add quotes: the value contains whitespace
or a reserved character. -/
def quoteNeeded (v : Str) : Bool :=
  v.any fun c => isWs c || c = ';' || c = lbraceC || c = rbraceC

/-- Render a value or selector, re-adding quotes only when needed. -/
def renderValue (v : Str) : Str :=
  if quoteNeeded v then quoteC :: v ++ [quoteC] else v

/-- Four spaces of indentation per nesting level. -/
def indentStr (lvl : Nat) : Str := List.replicate (4 * lvl) ' '

mutual

/-- Canonical rendering of one entry at a nesting level (spec §4.4). -/
def serializeEntry (lvl : Nat) : Entry → Str
  | .directive k v => indentStr lvl ++ k ++ ' ' :: renderValue v ++ [';', '\n']
  | .block kind sel ch =>
    indentStr lvl ++ kind ++ (if sel = [] then [] else ' ' :: renderValue sel) ++
      ' ' :: lbraceC :: '\n' :: serializeEntries (lvl + 1) ch ++ indentStr lvl ++ [rbraceC, '\n']

/-- Canonical rendering of a child list. -/
def serializeEntries (lvl : Nat) : List Entry → Str
  | [] => []
  | e :: es => serializeEntry lvl e ++ serializeEntries lvl es

end

/-- `serialize`: canonical text of a document. -/
def serialize (doc : Doc) : Str := serializeEntries 0 doc

/-- The value tokens the lexer recovers from a rendered value: none for the
empty value, one word (quoted when needed) otherwise. -/
def valToks (v : Str) : List Tok :=
  if v = [] then [] else [Tok.word v (quoteNeeded v)]

mutual

/-- The token stream of one serialized entry. -/
def flatE : Entry → List Tok
  | .directive k v => Tok.word k false :: valToks v ++ [Tok.semi]
  | .block kind sel ch =>
    Tok.word kind false :: valToks sel ++ Tok.lbrace :: flats ch ++ [Tok.rbrace]

/-- The token stream of a serialized child list. -/
def flats : List Entry → List Tok
  | [] => []
  | e :: es => flatE e ++ flats es

end

/-- A key or kind as the parser produces it: a nonempty unquoted word, so
every character is a word character (and no `#` survives comment
stripping). -/
def okKey (k : Str) : Prop :=
  k ≠ [] ∧ ∀ c ∈ k, isWordChar c = true ∧ c ≠ hashC

/-- A value or selector as the parser produces it: space-joined token
contents, so it never contains a quote character or a `#`. -/
def okVal (v : Str) : Prop :=
  ∀ c ∈ v, c ≠ quoteC ∧ c ≠ hashC

/-- Well-formedness of parser output: the invariant under which
serialization lexes back to the same token stream. -/
inductive WFE : Entry → Prop where
  | directive {k v : Str} : okKey k → okVal v → WFE (.directive k v)
  | block {kind sel : Str} {ch : List Entry} :
    okKey kind → okVal sel → (∀ e ∈ ch, WFE e) → WFE (.block kind sel ch)

/-- The invariant of a token coming out of the lexer on `#`-free input. -/
def TokOk : Tok → Prop
  | .word w false => w ≠ [] ∧ ∀ c ∈ w, isWordChar c = true ∧ c ≠ hashC
  | .word w true => ∀ c ∈ w, c ≠ quoteC ∧ c ≠ hashC
  | _ => True

/-- The word-token contents the lexer recovers from a rendered value: none
for the empty value, the single (possibly quoted) word otherwise. -/
def valWords (v : Str) : List Str := if v = [] then [] else [v]

/-- The invariant carried by a lexer state: accumulated quoted characters
contain no quote and no `#`; accumulated word characters are a nonempty run
of word characters without `#`. -/
def stateOk : LexState → Prop
  | .main => True
  | .quote acc => ∀ c ∈ acc, c ≠ quoteC ∧ c ≠ hashC
  | .word acc => acc ≠ [] ∧ ∀ c ∈ acc, isWordChar c = true ∧ c ≠ hashC

/-- A continuation on which an unquoted word ends: empty input or a
non-word-character first character. -/
def delimHead : Str → Prop
  | [] => True
  | c :: _ => isWordChar c = false

/-- Whether a directive child (not a block) with the given key exists:
the notion of key-presence used by spec §4.3's directive table. -/
def hasDirKey : List Entry → Str → Bool
  | [], _ => false
  | .directive k _ :: es, key => if k = key then true else hasDirKey es key
  | .block _ _ _ :: es, key => hasDirKey es key

/-- Whether some top-level server block has a directive child with the key. -/
def someServerHasDirKey : Doc → Str → Bool
  | [], _ => false
  | .block kind _ ch :: es, key =>
    if kind = serverKind ∧ hasDirKey ch key = true then true else someServerHasDirKey es key
  | _ :: es, key => someServerHasDirKey es key

/-!  Helper lemmas about the child-list primitives. -/

theorem entryName_setEntryValue (e : Entry) (v : Str) :
    entryName (setEntryValue e v) = entryName e := by
  cases e <;> simp [entryName, setEntryValue]

theorem entryValue_setEntryValue (e : Entry) (v : Str) :
    entryValue (setEntryValue e v) = v := by
  cases e <;> simp [entryValue, setEntryValue]

theorem hasName_of_getFirstValue {ch : List Entry} {k v : Str}
    (h : getFirstValue ch k = some v) : hasName ch k = true := by
  induction ch with
  | nil => simp [getFirstValue] at h
  | cons e es ih =>
    simp only [getFirstValue, hasName] at h ⊢
    split at h
    · simp [*]
    · simp [*, ih h]

theorem getFirstValue_setFirstValue {ch : List Entry} {k : Str} (v : Str)
    (h : hasName ch k = true) :
    getFirstValue (setFirstValue ch k v) k = some v := by
  induction ch with
  | nil => simp [hasName] at h
  | cons e es ih =>
    simp only [hasName] at h
    simp only [setFirstValue]
    split
    · simp [getFirstValue, entryName_setEntryValue, entryValue_setEntryValue, *]
    · simp only [getFirstValue]
      split at h
      · simp_all
      · simp [*, ih h]

theorem hasName_setFirstValue (ch : List Entry) (k v : Str) :
    hasName (setFirstValue ch k v) k = hasName ch k := by
  induction ch with
  | nil => simp [setFirstValue]
  | cons e es ih =>
    simp only [setFirstValue]
    split
    · simp [hasName, entryName_setEntryValue, *]
    · simp [hasName, *]

theorem hasName_append_directive (ch : List Entry) (k v : Str) :
    hasName (ch ++ [Entry.directive k v]) k = true := by
  induction ch with
  | nil => simp [hasName, entryName]
  | cons e es ih =>
    simp only [List.cons_append, hasName]
    split <;> simp [ih]

theorem addIfAbsent_idem (ch : List Entry) (k v : Str) :
    addIfAbsent (addIfAbsent ch k v) k v = addIfAbsent ch k v := by
  unfold addIfAbsent
  split
  · simp [addIfAbsent, *]
  · simp [addIfAbsent, hasName_append_directive]

theorem countDir_eq_zero_of_not_hasName {ch : List Entry} {k : Str}
    (h : hasName ch k = false) : countDir ch k = 0 := by
  induction ch with
  | nil => simp [countDir]
  | cons e es ih =>
    simp only [hasName] at h
    by_cases hk : entryName e = k
    · simp [hk] at h
    · rw [if_neg hk] at h
      cases e with
      | directive k2 v2 =>
        have hne : ¬(k2 = k) := by simpa [entryName] using hk
        simp [countDir, hne, ih h]
      | block kind sel ch2 => simp [countDir, ih h]

theorem countDir_append_directive (ch : List Entry) (k v : Str) :
    countDir (ch ++ [Entry.directive k v]) k = countDir ch k + 1 := by
  induction ch with
  | nil => simp [countDir]
  | cons e es ih =>
    cases e with
    | directive k2 v2 =>
      simp only [List.cons_append, countDir, List.append_eq, ih]
      omega
    | block kind sel ch2 => simp only [List.cons_append, countDir, List.append_eq, ih]

theorem getFirstValue_append_of_not_hasName {ch : List Entry} {k : Str} (v : Str)
    (h : hasName ch k = false) :
    getFirstValue (ch ++ [Entry.directive k v]) k = some v := by
  induction ch with
  | nil => simp [getFirstValue, entryName, entryValue]
  | cons e es ih =>
    simp only [hasName] at h
    split at h
    · exact absurd h (by simp)
    · simp only [List.cons_append, getFirstValue, *]
      simp [ih h, *]

theorem onServers_eq_self {doc : Doc} {f : List Entry → List Entry}
    (h : ∀ sel ch, Entry.block serverKind sel ch ∈ doc → f ch = ch) :
    onServers doc f = doc := by
  induction doc with
  | nil => simp [onServers]
  | cons e es ih =>
    have hes : ∀ sel ch, Entry.block serverKind sel ch ∈ es → f ch = ch := by
      intro sel ch hm
      exact h sel ch (List.mem_cons_of_mem _ hm)
    have ihes := ih hes
    simp only [onServers, List.map_cons] at ihes ⊢
    rw [ihes]
    cases e with
    | directive k v => rfl
    | block kind sel ch =>
      by_cases hk : kind = serverKind
      · subst hk
        simp [h sel ch (List.mem_cons_self _ _)]
      · simp [hk]

theorem lookupFs_append_self {fs : FileStore} {n : Str} (c : Str)
    (h : lookupFs fs n = none) :
    lookupFs (fs ++ [(n, c)]) n = some c := by
  induction fs with
  | nil => simp [lookupFs]
  | cons p fs ih =>
    simp only [lookupFs] at h
    split at h
    · exact absurd h (by simp)
    · simp only [List.cons_append, lookupFs]
      split
      · simp_all
      · exact ih h

theorem memStr_append_self (l : List Str) (x : Str) :
    memStr (l ++ [x]) x = true := by
  induction l with
  | nil => simp [memStr]
  | cons s ss ih =>
    simp only [List.cons_append, memStr]
    split <;> simp [ih]

theorem onServers_getElem_server {doc : Doc} (f : List Entry → List Entry) {i : Nat}
    {sel : Str} {ch : List Entry} (h : doc[i]? = some (Entry.block serverKind sel ch)) :
    (onServers doc f)[i]? = some (Entry.block serverKind sel (f ch)) := by
  unfold onServers
  rw [List.getElem?_map, h]
  simp

theorem onServers_onServers (doc : Doc) (f g : List Entry → List Entry) :
    onServers (onServers doc f) g = onServers doc (fun ch => g (f ch)) := by
  unfold onServers
  rw [List.map_map]
  apply List.map_congr_left
  intro e _
  cases e with
  | directive k v => rfl
  | block kind sel ch =>
    by_cases hk : kind = serverKind
    · simp [hk]
    · simp [hk]

theorem locMap_eq_self {rest : List Entry} {f : Str → List Entry → Entry}
    (h : ∀ e ∈ rest, entryName e ≠ locationKind) :
    (rest.map fun e =>
      match e with
      | .block kind sel ch2 => if kind = locationKind then f sel ch2 else e
      | e => e) = rest := by
  induction rest with
  | nil => rfl
  | cons e es ih =>
    have he := h e (List.mem_cons_self _ _)
    have hes : ∀ e ∈ es, entryName e ≠ locationKind := fun e hm =>
      h e (List.mem_cons_of_mem _ hm)
    simp only [List.map_cons, ih hes]
    cases e with
    | directive k v => rfl
    | block kind sel ch2 =>
      simp only [entryName] at he
      simp [he]

theorem firstServer_mapFirstServer {doc : Doc} {sel : Str} {ch : List Entry}
    (f : List Entry → List Entry) (h : firstServer doc = some (sel, ch)) :
    firstServer (mapFirstServer doc f) = some (sel, f ch) := by
  induction doc with
  | nil => simp [firstServer] at h
  | cons e es ih =>
    cases e with
    | directive k v =>
      simp only [firstServer] at h
      simp only [mapFirstServer, firstServer]
      exact ih h
    | block kind sel2 ch2 =>
      simp only [firstServer] at h
      by_cases hk : kind = serverKind
      · rw [if_pos hk] at h
        injection h with h2
        injection h2 with h3 h4
        subst h3
        subst h4
        simp [mapFirstServer, firstServer, hk]
      · rw [if_neg hk] at h
        simp [mapFirstServer, firstServer, hk, ih h]

theorem hasLocation_append_self (ch : List Entry) (loc : Str) :
    hasLocation (ch ++ [Entry.block locationKind loc []]) loc = true := by
  induction ch with
  | nil => simp [hasLocation, entryName, entryValue]
  | cons e es ih =>
    simp only [List.cons_append, hasLocation]
    split <;> simp [ih]

theorem countLocValue_append_self (ch : List Entry) (loc : Str) :
    countLocValue (ch ++ [Entry.block locationKind loc []]) loc = countLocValue ch loc + 1 := by
  induction ch with
  | nil => simp [countLocValue, entryName, entryValue]
  | cons e es ih =>
    simp only [List.cons_append, countLocValue, List.append_eq, ih]
    omega

theorem countLocValue_eq_zero_of_not_hasLocation {ch : List Entry} {loc : Str}
    (h : hasLocation ch loc = false) : countLocValue ch loc = 0 := by
  induction ch with
  | nil => simp [countLocValue]
  | cons e es ih =>
    simp only [hasLocation] at h
    split at h
    · exact absurd h (by simp)
    · simp only [countLocValue]
      rw [if_neg (by assumption), ih h]

/-!  Claim theorems. -/

/-- C9: For every non-empty domain with no existing configuration file,
`createConfigFile` writes exactly the minimal template
(`server {`, indented `listen 80;`, indented `server_name <domain>;`, a
blank line, then the closing brace); it fails without writing when the
domain is empty or the file already exists. -/
theorem createConfigFile_spec (fs : FileStore) (domain : Str) :
    (domain ≠ [] → lookupFs fs (configFileName domain) = none →
      createConfigFile fs domain =
        .ok (fs ++ [(configFileName domain, configTemplate domain)]) ∧
      lookupFs (fs ++ [(configFileName domain, configTemplate domain)]) (configFileName domain) =
        some (configTemplate domain)) ∧
    (domain = [] → createConfigFile fs domain = .error .emptyDomain) ∧
    (∀ c, lookupFs fs (configFileName domain) = some c → domain ≠ [] →
      createConfigFile fs domain = .error .configExists) := by
  refine ⟨fun h1 h2 => ⟨?_, ?_⟩, fun h1 => ?_, fun c hc h1 => ?_⟩
  · simp [createConfigFile, h1, h2]
  · exact lookupFs_append_self _ h2
  · simp [createConfigFile, h1]
  · simp [createConfigFile, h1, hc]

/-- C9 witness: creating `a.com` in an empty store succeeds with the
template, and the failure branches fire on the empty domain and on a
pre-existing file. -/
theorem createConfigFile_spec_witness :
    createConfigFile [] ['a', '.', 'c', 'o', 'm'] =
      .ok [(configFileName ['a', '.', 'c', 'o', 'm'], configTemplate ['a', '.', 'c', 'o', 'm'])] ∧
    createConfigFile [] [] = .error .emptyDomain := by
  constructor
  · have h := ((createConfigFile_spec [] ['a', '.', 'c', 'o', 'm']).1 (by simp) rfl).1
    simpa using h
  · exact (createConfigFile_spec [] []).2.1 rfl

/-- C10: `enableConfigFile` throws exactly when the configuration file does
not exist; with the file present and the symlink already in place it returns
with the state unchanged (idempotent), and with the file present but not
enabled it creates the symlink. -/
theorem enableConfigFile_spec (st : NState) (domain : Str) :
    ((∃ e, enableConfigFile st domain = .error e) ↔ checkConfigFileExists st domain = false) ∧
    (checkConfigFileExists st domain = true → checkConfigFileEnabled st domain = true →
      enableConfigFile st domain = .ok st) ∧
    (checkConfigFileExists st domain = true → checkConfigFileEnabled st domain = false →
      ∃ st2, enableConfigFile st domain = .ok st2 ∧
        checkConfigFileEnabled st2 domain = true ∧ st2.avail = st.avail) := by
  refine ⟨⟨fun ⟨e, he⟩ => ?_, fun h => ?_⟩, fun h1 h2 => ?_, fun h1 h2 => ?_⟩
  · by_contra hne
    have hx : checkConfigFileExists st domain = true := by
      cases hv : checkConfigFileExists st domain
      · exact absurd hv hne
      · rfl
    unfold enableConfigFile at he
    rw [hx] at he
    simp only [Bool.true_eq_false, if_false] at he
    split at he <;> simp at he
  · exact ⟨.configMissing, by simp [enableConfigFile, h]⟩
  · simp [enableConfigFile, h1, h2]
  · refine ⟨⟨st.avail, st.enabled ++ [configFileName domain]⟩, ?_, ?_, rfl⟩
    · simp [enableConfigFile, h1, h2]
    · simpa [checkConfigFileEnabled] using memStr_append_self st.enabled (configFileName domain)

/-- C10 witness: with `a.conf` available and not yet enabled, enabling
succeeds and a second call is accepted with the state unchanged. -/
theorem enableConfigFile_spec_witness :
    checkConfigFileExists ⟨[configFileName ['a']], []⟩ ['a'] = true ∧
    checkConfigFileEnabled ⟨[configFileName ['a']], []⟩ ['a'] = false ∧
    (∃ st2, enableConfigFile ⟨[configFileName ['a']], []⟩ ['a'] = .ok st2 ∧
      checkConfigFileEnabled st2 ['a'] = true ∧
      st2.avail = [configFileName ['a']]) := by
  refine ⟨rfl, rfl, ?_⟩
  exact (enableConfigFile_spec ⟨[configFileName ['a']], []⟩ ['a']).2.2 rfl rfl

/-- C3 counterexample: in a server block whose only child is a `location`
block, no directive with key `location` exists, yet `addKeyToServer` with
key `location` appends nothing — the existence check `server[key] !==
undefined` also matches nested blocks, so the claimed "iff no directive
with that key exists" fails. -/
theorem addKeyToServer_block_shadow :
    addKeyToServer [Entry.block serverKind [] [Entry.block locationKind ['/', 'x'] []]]
        locationKind ['v'] =
      .ok [Entry.block serverKind [] [Entry.block locationKind ['/', 'x'] []]] ∧
    hasDirKey [Entry.block locationKind ['/', 'x'] []] locationKind = false :=
  ⟨rfl, rfl⟩

/-- C3 amended: `addKeyToServer` (per server block) and `addKeyToLocation`
(per matching location block) append a new directive iff no child entry —
directive or nested block — with that name exists; a second identical call
is a no-op, and after two identical adds exactly one directive with the key
remains, holding the original value. -/
theorem addKey_idempotent_spec :
    (∀ (doc : Doc) (key value : Str), key ≠ [] →
      ∃ d2, addKeyToServer doc key value = .ok d2 ∧
        addKeyToServer d2 key value = .ok d2 ∧
        ∀ (i : Nat) (sel : Str) (ch : List Entry),
          doc[i]? = some (Entry.block serverKind sel ch) →
          ∃ ch2, d2[i]? = some (Entry.block serverKind sel ch2) ∧
            (hasName ch key = true → ch2 = ch) ∧
            (hasName ch key = false →
              ch2 = ch ++ [Entry.directive key value] ∧ countDir ch2 key = 1 ∧
                getFirstValue ch2 key = some value)) ∧
    (∀ (selS loc : Str) (ch2 rest : List Entry) (key value : Str),
      (∀ e ∈ rest, entryName e ≠ locationKind) →
      addKeyToLocation [Entry.block serverKind selS (Entry.block locationKind loc ch2 :: rest)]
          loc key value =
        [Entry.block serverKind selS
          (Entry.block locationKind loc (addIfAbsent ch2 key value) :: rest)] ∧
      (hasName ch2 key = true → addIfAbsent ch2 key value = ch2) ∧
      (hasName ch2 key = false → addIfAbsent ch2 key value = ch2 ++ [Entry.directive key value]) ∧
      addIfAbsent (addIfAbsent ch2 key value) key value = addIfAbsent ch2 key value) := by
  constructor
  · intro doc key value hk
    refine ⟨onServers doc fun ch => addIfAbsent ch key value, by simp [addKeyToServer, hk], ?_, ?_⟩
    · rw [addKeyToServer, if_neg hk, onServers_onServers]
      have hfun : (fun ch => addIfAbsent (addIfAbsent ch key value) key value) =
          fun ch => addIfAbsent ch key value := by
        funext ch
        exact addIfAbsent_idem ch key value
      rw [hfun]
    · intro i sel ch hi
      refine ⟨addIfAbsent ch key value, onServers_getElem_server _ hi, ?_, ?_⟩
      · intro hn
        simp [addIfAbsent, hn]
      · intro hn
        refine ⟨by simp [addIfAbsent, hn], ?_, ?_⟩
        · rw [addIfAbsent, hn]
          simp only [Bool.false_eq_true, if_false]
          rw [countDir_append_directive, countDir_eq_zero_of_not_hasName hn]
        · rw [addIfAbsent, hn]
          simp only [Bool.false_eq_true, if_false]
          exact getFirstValue_append_of_not_hasName value hn
  · intro selS loc ch2 rest key value hrest
    refine ⟨?_, fun hn => by simp [addIfAbsent, hn], fun hn => by simp [addIfAbsent, hn],
      addIfAbsent_idem ch2 key value⟩
    unfold addKeyToLocation onLocations onServers
    simp only [List.map_cons, List.map_nil, if_true]
    rw [locMap_eq_self hrest]

/-- C3 witness: one empty server block; adding key `r` twice yields a single
`r` directive with the original value. -/
theorem addKey_idempotent_spec_witness :
    (['r'] : Str) ≠ [] ∧
    ∃ d2, addKeyToServer [Entry.block serverKind [] []] ['r'] ['x'] = .ok d2 ∧
      addKeyToServer d2 ['r'] ['x'] = .ok d2 ∧
      ∀ (i : Nat) (sel : Str) (ch : List Entry),
        [Entry.block serverKind [] []][i]? = some (Entry.block serverKind sel ch) →
        ∃ ch2, d2[i]? = some (Entry.block serverKind sel ch2) ∧
          (hasName ch ['r'] = true → ch2 = ch) ∧
          (hasName ch ['r'] = false →
            ch2 = ch ++ [Entry.directive ['r'] ['x']] ∧ countDir ch2 ['r'] = 1 ∧
              getFirstValue ch2 ['r'] = some ['x']) :=
  ⟨by decide, addKey_idempotent_spec.1 [Entry.block serverKind [] []] ['r'] ['x'] (by decide)⟩

/-- C4: with a first server block present, `addLocation` refuses a selector
already carried by one of its `location` children (`DuplicateBlockError`,
nothing written), and after a successful add the same selector is refused on
the second call, the document retaining exactly one location block with that
selector. -/
theorem addLocation_duplicate_spec (doc : Doc) (loc sel : Str) (ch : List Entry)
    (hfs : firstServer doc = some (sel, ch)) (hl : loc ≠ []) :
    (hasLocation ch loc = true → addLocation doc loc = .error .duplicateLocation) ∧
    (hasLocation ch loc = false →
      ∃ d2, addLocation doc loc = .ok d2 ∧
        firstServer d2 = some (sel, ch ++ [Entry.block locationKind loc []]) ∧
        countLocValue (ch ++ [Entry.block locationKind loc []]) loc = 1 ∧
        addLocation d2 loc = .error .duplicateLocation) := by
  constructor
  · intro hdup
    rw [addLocation, if_neg hl, hfs]
    simp [hdup]
  · intro hdup
    refine ⟨mapFirstServer doc fun ch => ch ++ [Entry.block locationKind loc []], ?_, ?_, ?_, ?_⟩
    · rw [addLocation, if_neg hl, hfs]
      simp [hdup]
    · exact firstServer_mapFirstServer _ hfs
    · rw [countLocValue_append_self, countLocValue_eq_zero_of_not_hasLocation hdup]
    · rw [addLocation, if_neg hl, firstServer_mapFirstServer _ hfs]
      simp [hasLocation_append_self]

/-- C4 witness: adding `/a` to a fresh server block succeeds, leaves exactly
one `/a` location, and the second identical call fails with the duplicate
error. -/
theorem addLocation_duplicate_spec_witness :
    hasLocation [] ['/', 'a'] = false ∧
    ∃ d2, addLocation [Entry.block serverKind [] []] ['/', 'a'] = .ok d2 ∧
      firstServer d2 = some ([], [] ++ [Entry.block locationKind ['/', 'a'] []]) ∧
      countLocValue ([] ++ [Entry.block locationKind ['/', 'a'] []]) ['/', 'a'] = 1 ∧
      addLocation d2 ['/', 'a'] = .error .duplicateLocation :=
  ⟨rfl, (addLocation_duplicate_spec [Entry.block serverKind [] []] ['/', 'a'] [] []
    rfl (by decide)).2 rfl⟩

/-- C5 counterexample: the server block contains no directive with key
`location`, only a `location` block, yet `updateKeyInServer` rewrites that
block's selector and `deleteKeyFromServer` removes the block — the claimed
"silent no-op on an absent key" fails because the existence check matches
any child named `key`. -/
theorem updateKey_block_shadow :
    updateKeyInServer [Entry.block serverKind [] [Entry.block locationKind ['/', 'a'] []]]
        locationKind ['/', 'b'] =
      [Entry.block serverKind [] [Entry.block locationKind ['/', 'b'] []]] ∧
    deleteKeyFromServer [Entry.block serverKind [] [Entry.block locationKind ['/', 'a'] []]]
        locationKind =
      [Entry.block serverKind [] []] ∧
    hasDirKey [Entry.block locationKind ['/', 'a'] []] locationKind = false :=
  ⟨rfl, rfl, rfl⟩

/-- C5 amended: `updateKeyInServer` and `deleteKeyFromServer` are silent
no-ops — never errors — when no child entry named `key` exists in any server
block; when the first child named `key` is a nested block, update rewrites
that block's selector and delete removes the block. -/
theorem updateDeleteKey_silent_spec :
    (∀ (doc : Doc) (key newValue : Str),
      (∀ sel ch, Entry.block serverKind sel ch ∈ doc → hasName ch key = false) →
      updateKeyInServer doc key newValue = doc ∧ deleteKeyFromServer doc key = doc) ∧
    (∀ (selS sel2 newValue : Str) (ch2 rest : List Entry) (key : Str),
      updateKeyInServer [Entry.block serverKind selS (Entry.block key sel2 ch2 :: rest)]
          key newValue =
        [Entry.block serverKind selS (Entry.block key newValue ch2 :: rest)] ∧
      deleteKeyFromServer [Entry.block serverKind selS (Entry.block key sel2 ch2 :: rest)] key =
        [Entry.block serverKind selS rest]) := by
  constructor
  · intro doc key newValue h
    constructor
    · exact onServers_eq_self fun sel ch hm => by simp [h sel ch hm]
    · exact onServers_eq_self fun sel ch hm => by simp [h sel ch hm]
  · intro selS sel2 newValue ch2 rest key
    constructor
    · unfold updateKeyInServer onServers
      simp [hasName, setFirstValue, setEntryValue, entryName]
    · unfold deleteKeyFromServer onServers
      simp [hasName, removeFirst, entryName]

/-- C5 witness: on a document whose lone server block has a single `root`
directive, update and delete with the absent key `alias` leave the tree
unchanged. -/
theorem updateDeleteKey_silent_spec_witness :
    updateKeyInServer [Entry.block serverKind [] [Entry.directive ['r', 'o', 'o', 't'] ['/']]]
        ['a', 'l', 'i', 'a', 's'] ['x'] =
      [Entry.block serverKind [] [Entry.directive ['r', 'o', 'o', 't'] ['/']]] ∧
    deleteKeyFromServer [Entry.block serverKind [] [Entry.directive ['r', 'o', 'o', 't'] ['/']]]
        ['a', 'l', 'i', 'a', 's'] =
      [Entry.block serverKind [] [Entry.directive ['r', 'o', 'o', 't'] ['/']]] :=
  updateDeleteKey_silent_spec.1
    [Entry.block serverKind [] [Entry.directive ['r', 'o', 'o', 't'] ['/']]]
    ['a', 'l', 'i', 'a', 's'] ['x']
    (by
      intro sel ch hm
      rw [List.mem_singleton] at hm
      injection hm with h1 h2 h3
      subst h3
      decide)

/-- C6 counterexample: `addKeyToLocation` performs no blank-key check — with
an empty key it silently appends a directive with empty key instead of
failing with `EmptyKeyError` before mutating the tree. -/
theorem addKeyToLocation_blank_key :
    addKeyToLocation [Entry.block serverKind [] [Entry.block locationKind ['/', 'a'] []]]
        ['/', 'a'] [] ['v'] =
      [Entry.block serverKind []
        [Entry.block locationKind ['/', 'a'] [Entry.directive [] ['v']]]] :=
  rfl

/-- C6 amended: only `addKeyToServer` rejects a blank key with
`EmptyKeyError` before mutating; `addKeyToLocation` performs no blank-key
check and appends a directive with empty key to the matching location
block. -/
theorem blankKey_spec :
    (∀ (doc : Doc) (value : Str), addKeyToServer doc [] value = .error .emptyKey) ∧
    (∀ (selS loc : Str) (ch2 rest : List Entry) (value : Str),
      hasName ch2 [] = false → (∀ e ∈ rest, entryName e ≠ locationKind) →
      addKeyToLocation [Entry.block serverKind selS (Entry.block locationKind loc ch2 :: rest)]
          loc [] value =
        [Entry.block serverKind selS
          (Entry.block locationKind loc (ch2 ++ [Entry.directive [] value]) :: rest)]) := by
  constructor
  · intro doc value
    simp [addKeyToServer]
  · intro selS loc ch2 rest value hn hrest
    unfold addKeyToLocation onLocations onServers
    simp only [List.map_cons, List.map_nil, if_true]
    rw [locMap_eq_self hrest]
    simp [addIfAbsent, hn]

/-- C6 witness: the blank-key rejection on the server side and the silent
blank-key append on the location side, at a concrete document. -/
theorem blankKey_spec_witness :
    addKeyToServer [Entry.block serverKind [] []] [] ['v'] = .error .emptyKey ∧
    addKeyToLocation [Entry.block serverKind [] (Entry.block locationKind ['/'] [] :: [])]
        ['/'] [] ['v'] =
      [Entry.block serverKind []
        (Entry.block locationKind ['/'] ([] ++ [Entry.directive [] ['v']]) :: [])] :=
  ⟨blankKey_spec.1 [Entry.block serverKind [] []] ['v'],
    blankKey_spec.2 [] ['/'] [] [] ['v'] rfl (by decide)⟩

theorem hasName_addIfAbsent (ch : List Entry) (k v : Str) :
    hasName (addIfAbsent ch k v) k = true := by
  unfold addIfAbsent
  split
  · assumption
  · exact hasName_append_directive ch k v

/-- C2 counterexample: with two server blocks, `addKeyToServer` adds the
directive to both (the second block does not stay unchanged), and
`getKeyValueFromServer` returns the value from the last block holding the
key, not the first. -/
theorem processServerBlock_visits_all :
    addKeyToServer [Entry.block serverKind [] [], Entry.block serverKind [] []] ['r'] ['x'] =
      .ok [Entry.block serverKind [] [Entry.directive ['r'] ['x']],
        Entry.block serverKind [] [Entry.directive ['r'] ['x']]] ∧
    getKeyValueFromServer
      [Entry.block serverKind [] [Entry.directive ['r'] ['1']],
        Entry.block serverKind [] [Entry.directive ['r'] ['2']]] ['r'] = some ['2'] :=
  ⟨rfl, rfl⟩

/-- C2 amended: the server-block operations act on every top-level server
block in document order — add/update/delete are applied in each block, the
single-pair multi-add coincides with the single add, and
`getKeyValueFromServer` returns the value from the last server block that
contains the key. -/
theorem serverOps_every_block_spec :
    (∀ (doc : Doc) (key value : Str) (d2 : Doc), key ≠ [] →
      addKeyToServer doc key value = .ok d2 →
      ∀ (i : Nat) (sel : Str) (ch : List Entry),
        doc[i]? = some (Entry.block serverKind sel ch) →
        ∃ ch2, d2[i]? = some (Entry.block serverKind sel ch2) ∧ hasName ch2 key = true) ∧
    (∀ (doc : Doc) (key v : Str) (i : Nat) (sel : Str) (ch : List Entry),
      doc[i]? = some (Entry.block serverKind sel ch) → hasName ch key = true →
      ∃ ch2, (updateKeyInServer doc key v)[i]? = some (Entry.block serverKind sel ch2) ∧
        getFirstValue ch2 key = some v) ∧
    (∀ (doc : Doc) (key : Str) (i : Nat) (sel : Str) (ch : List Entry),
      doc[i]? = some (Entry.block serverKind sel ch) → hasName ch key = true →
      (deleteKeyFromServer doc key)[i]? =
        some (Entry.block serverKind sel (removeFirst ch key))) ∧
    (∀ (sel1 sel2 : Str) (ch1 ch2 : List Entry) (key v : Str),
      getFirstValue ch2 key = some v →
      getKeyValueFromServer
        [Entry.block serverKind sel1 ch1, Entry.block serverKind sel2 ch2] key = some v) ∧
    (∀ (doc : Doc) (key value : Str), key ≠ [] →
      addKeyToServer doc key value = .ok (addMultipleKeysToServer doc [(key, value)])) := by
  refine ⟨?_, ?_, ?_, ?_, ?_⟩
  · intro doc key value d2 hk hadd i sel ch hi
    rw [addKeyToServer, if_neg hk] at hadd
    injection hadd with hd2
    refine ⟨addIfAbsent ch key value, ?_, hasName_addIfAbsent ch key value⟩
    rw [← hd2]
    exact onServers_getElem_server _ hi
  · intro doc key v i sel ch hi hn
    refine ⟨setFirstValue ch key v, ?_, getFirstValue_setFirstValue v hn⟩
    unfold updateKeyInServer
    have := onServers_getElem_server
      (fun ch => if hasName ch key then setFirstValue ch key v else ch) hi
    rw [this]
    simp [hn]
  · intro doc key i sel ch hi hn
    unfold deleteKeyFromServer
    have := onServers_getElem_server
      (fun ch => if hasName ch key then removeFirst ch key else ch) hi
    rw [this]
    simp [hn]
  · intro sel1 sel2 ch1 ch2 key v h2
    cases h1 : getFirstValue ch1 key <;>
      simp [getKeyValueFromServer, h1, h2]
  · intro doc key value hk
    rw [addKeyToServer, if_neg hk]
    rfl

/-- C2 witness: the amended behavior at concrete two-server documents — the
second server block also receives the added key, and the getter reads from
the second block. -/
theorem serverOps_every_block_spec_witness :
    (∃ ch2,
      (Except.ok [Entry.block serverKind [] [Entry.directive ['r'] ['x']],
          Entry.block serverKind [] [Entry.directive ['r'] ['x']]] :
            Except NbmError Doc)
          = .ok [Entry.block serverKind [] [Entry.directive ['r'] ['x']],
              Entry.block serverKind [] [Entry.directive ['r'] ['x']]] ∧
        [Entry.block serverKind [] [Entry.directive ['r'] ['x']],
          Entry.block serverKind [] [Entry.directive ['r'] ['x']]][1]? =
          some (Entry.block serverKind [] ch2) ∧
        hasName ch2 ['r'] = true) ∧
    getKeyValueFromServer
      [Entry.block serverKind [] [Entry.directive ['r'] ['1']],
        Entry.block serverKind [] [Entry.directive ['r'] ['2']]] ['r'] = some ['2'] := by
  constructor
  · obtain ⟨ch2, h1, h2⟩ :=
      serverOps_every_block_spec.1
        [Entry.block serverKind [] [], Entry.block serverKind [] []] ['r'] ['x']
        [Entry.block serverKind [] [Entry.directive ['r'] ['x']],
          Entry.block serverKind [] [Entry.directive ['r'] ['x']]]
        (by decide) rfl 1 [] [] rfl
    exact ⟨ch2, rfl, h1, h2⟩
  · exact serverOps_every_block_spec.2.2.2.1 [] [] [Entry.directive ['r'] ['1']]
      [Entry.directive ['r'] ['2']] ['r'] ['2'] rfl

theorem splitSp_ne_nil (s : Str) : splitSp s ≠ [] := by
  cases s with
  | nil => simp [splitSp]
  | cons c r =>
    simp only [splitSp]
    split <;> split <;> simp

theorem splitSp_no_space {s : Str} (h : ∀ c ∈ s, c ≠ ' ') : splitSp s = [s] := by
  induction s with
  | nil => rfl
  | cons c r ih =>
    have hc : c ≠ ' ' := h c (List.mem_cons_self _ _)
    have hr : splitSp r = [r] := ih fun x hx => h x (List.mem_cons_of_mem _ hx)
    simp [splitSp, hr, hc]

theorem splitSp_append {a : Str} (b : Str) (h : ∀ c ∈ a, c ≠ ' ') :
    splitSp (a ++ ' ' :: b) = a :: splitSp b := by
  induction a with
  | nil =>
    simp only [List.nil_append, splitSp]
    cases hb : splitSp b with
    | nil => exact absurd hb (splitSp_ne_nil b)
    | cons x t => simp
  | cons c a2 ih =>
    have hc : c ≠ ' ' := h c (List.mem_cons_self _ _)
    have ha2 := ih fun x hx => h x (List.mem_cons_of_mem _ hx)
    simp only [List.cons_append, splitSp, List.append_eq]
    rw [ha2]
    simp [hc]

theorem getKeyValueFromServer_single (sel : Str) (ch : List Entry) (key : Str) :
    getKeyValueFromServer [Entry.block serverKind sel ch] key = getFirstValue ch key := by
  cases h : getFirstValue ch key <;> simp [getKeyValueFromServer, h]

theorem updateKeyInServer_single {ch : List Entry} {key : Str} (sel v : Str)
    (hn : hasName ch key = true) :
    updateKeyInServer [Entry.block serverKind sel ch] key v =
      [Entry.block serverKind sel (setFirstValue ch key v)] := by
  simp [updateKeyInServer, onServers, hn]

/-- C7: starting from a server block whose `server_name` value is exactly the
base domain, `addSubdomain` rewrites the value to `domain sub.domain` (base
domain first); `addSubdomain` again with the same subdomain fails with the
duplicate error; `deleteSubdomain` then restores the value to exactly the
base domain. -/
theorem subdomain_spec (selS domain sub : Str) (ch : List Entry)
    (hsn : getFirstValue ch serverNameKey = some domain)
    (hd : ∀ c ∈ domain, c ≠ ' ') (hs : ∀ c ∈ sub, c ≠ ' ') :
    ∃ d2, addSubdomain [Entry.block serverKind selS ch] domain sub = .ok d2 ∧
      getKeyValueFromServer d2 serverNameKey =
        some (domain ++ ' ' :: (sub ++ '.' :: domain)) ∧
      addSubdomain d2 domain sub = .error .duplicateSubdomain ∧
      ∃ d3, deleteSubdomain d2 domain sub = .ok d3 ∧
        getKeyValueFromServer d3 serverNameKey = some domain := by
  have hname : hasName ch serverNameKey = true := hasName_of_getFirstValue hsn
  have hfullns : ∀ c ∈ sub ++ '.' :: domain, c ≠ ' ' := by
    intro c hc
    rcases List.mem_append.mp hc with hc | hc
    · exact hs c hc
    · rcases List.mem_cons.mp hc with hc | hc
      · subst hc
        decide
      · exact hd c hc
  have hfullne : sub ++ '.' :: domain ≠ domain := by
    intro heq
    have := congrArg List.length heq
    simp at this
    omega
  have hkv0 : getKeyValueFromServer [Entry.block serverKind selS ch] serverNameKey =
      some domain := by
    rw [getKeyValueFromServer_single, hsn]
  have hsubs0 : getSubdomains [Entry.block serverKind selS ch] domain = [] := by
    unfold getSubdomains
    rw [hkv0]
    simp [splitSp_no_space hd]
  have hchk0 : checkSubdomainExists [Entry.block serverKind selS ch] domain sub = false := by
    unfold checkSubdomainExists
    rw [hsubs0]
    rfl
  have hadd : addSubdomain [Entry.block serverKind selS ch] domain sub =
      .ok (updateKeyInServer [Entry.block serverKind selS ch] serverNameKey
        (domain ++ ' ' :: (sub ++ '.' :: domain))) := by
    unfold addSubdomain
    rw [hchk0]
    rw [hsubs0]
    simp [joinSp]
  set v2 := domain ++ ' ' :: (sub ++ '.' :: domain) with hv2
  have hupd : updateKeyInServer [Entry.block serverKind selS ch] serverNameKey v2 =
      [Entry.block serverKind selS (setFirstValue ch serverNameKey v2)] :=
    updateKeyInServer_single selS v2 hname
  set ch2 := setFirstValue ch serverNameKey v2 with hch2
  have hname2 : hasName ch2 serverNameKey = true := by
    rw [hch2, hasName_setFirstValue]
    exact hname
  have hsn2 : getFirstValue ch2 serverNameKey = some v2 :=
    getFirstValue_setFirstValue v2 hname
  have hkv2 : getKeyValueFromServer [Entry.block serverKind selS ch2] serverNameKey =
      some v2 := by
    rw [getKeyValueFromServer_single, hsn2]
  have hsplit2 : splitSp v2 = [domain, sub ++ '.' :: domain] := by
    rw [hv2, splitSp_append _ hd, splitSp_no_space hfullns]
  have hsubs2 : getSubdomains [Entry.block serverKind selS ch2] domain =
      [sub ++ '.' :: domain] := by
    unfold getSubdomains
    rw [hkv2]
    simp [hsplit2, List.filter, hfullne]
  have hchk2 : checkSubdomainExists [Entry.block serverKind selS ch2] domain sub = true := by
    unfold checkSubdomainExists
    rw [hsubs2]
    simp [memStr]
  refine ⟨[Entry.block serverKind selS ch2], by rw [hadd, hupd], hkv2, ?_, ?_⟩
  · unfold addSubdomain
    rw [hchk2]
    rfl
  · refine ⟨[Entry.block serverKind selS (setFirstValue ch2 serverNameKey domain)], ?_, ?_⟩
    · unfold deleteSubdomain
      rw [hchk2]
      rw [hkv2]
      simp only [hsplit2]
      have hdne : domain ≠ sub ++ '.' :: domain := fun hx => hfullne hx.symm
      have hrm : removeFirstStr [domain, sub ++ '.' :: domain] (sub ++ '.' :: domain) =
          [domain] := by
        simp [removeFirstStr, hdne]
      rw [hrm]
      rw [updateKeyInServer_single selS (joinSp [domain]) hname2]
      simp [joinSp]
    · rw [getKeyValueFromServer_single, getFirstValue_setFirstValue domain hname2]

/-- C7 witness: from `server_name a.com`, adding subdomain `api` yields
`a.com api.a.com`, re-adding fails with the duplicate error, and deleting
restores `a.com`. -/
theorem subdomain_spec_witness :
    getFirstValue [Entry.directive serverNameKey ['a', '.', 'c', 'o', 'm']] serverNameKey =
      some ['a', '.', 'c', 'o', 'm'] ∧
    ∃ d2, addSubdomain [Entry.block serverKind []
        [Entry.directive serverNameKey ['a', '.', 'c', 'o', 'm']]]
        ['a', '.', 'c', 'o', 'm'] ['a', 'p', 'i'] = .ok d2 ∧
      getKeyValueFromServer d2 serverNameKey =
        some (['a', '.', 'c', 'o', 'm'] ++ ' ' ::
          (['a', 'p', 'i'] ++ '.' :: ['a', '.', 'c', 'o', 'm'])) ∧
      addSubdomain d2 ['a', '.', 'c', 'o', 'm'] ['a', 'p', 'i'] =
        .error .duplicateSubdomain ∧
      ∃ d3, deleteSubdomain d2 ['a', '.', 'c', 'o', 'm'] ['a', 'p', 'i'] = .ok d3 ∧
        getKeyValueFromServer d3 serverNameKey = some ['a', '.', 'c', 'o', 'm'] :=
  ⟨rfl, subdomain_spec [] ['a', '.', 'c', 'o', 'm'] ['a', 'p', 'i']
    [Entry.directive serverNameKey ['a', '.', 'c', 'o', 'm']] rfl (by decide) (by decide)⟩

theorem updMap_eq_self {ch : List Entry} {oldLoc : Str} (newLoc : Str)
    (h : hasLocation ch oldLoc = false) :
    (ch.map fun e =>
      if entryName e = locationKind ∧ entryValue e = oldLoc then setEntryValue e newLoc
      else e) = ch := by
  induction ch with
  | nil => rfl
  | cons e es ih =>
    simp only [hasLocation] at h
    split at h
    · exact absurd h (by simp)
    · simp only [List.map_cons, ih h]
      rw [if_neg (by assumption)]

theorem countLocValue_map_update {ch : List Entry} {oldLoc newLoc : Str}
    (hne : oldLoc ≠ newLoc) :
    countLocValue
      (ch.map fun e =>
        if entryName e = locationKind ∧ entryValue e = oldLoc then setEntryValue e newLoc
        else e) newLoc =
      countLocValue ch newLoc + countLocValue ch oldLoc := by
  induction ch with
  | nil => rfl
  | cons e es ih =>
    by_cases hcond : entryName e = locationKind ∧ entryValue e = oldLoc
    · simp only [List.map_cons, if_pos hcond, countLocValue, entryName_setEntryValue,
        entryValue_setEntryValue, ih]
      rw [if_neg (show ¬(entryName e = locationKind ∧ entryValue e = newLoc) from
        fun hx => hne (hcond.2.symm.trans hx.2))]
      simp only [hcond.1, and_true, if_true]
      omega
    · simp only [List.map_cons, if_neg hcond, countLocValue, ih]
      omega

theorem countLocDoc_updateLocation (doc : Doc) (oldLoc newLoc : Str)
    (hne : oldLoc ≠ newLoc) :
    countLocDoc (updateLocation doc oldLoc newLoc) newLoc =
      countLocDoc doc newLoc + countLocDoc doc oldLoc := by
  induction doc with
  | nil => rfl
  | cons e es ih =>
    simp only [updateLocation, onServers, List.map_cons] at ih ⊢
    cases e with
    | directive k v => simpa [countLocDoc] using ih
    | block kind sel ch =>
      by_cases hk : kind = serverKind
      · simp only [if_pos hk, countLocDoc, if_pos hk, ih,
          countLocValue_map_update hne]
        omega
      · simp only [if_neg hk, countLocDoc, if_neg hk, ih]
        omega

/-- C8: when no location block (in any server block) carries the old
selector, `updateLocation` is a silent no-op and the serialized document is
byte-identical to the serialization of the document before the call; and the
rename performs no uniqueness re-check — every location with the old
selector is renamed, so the count of locations with the new selector becomes
the sum of both counts. -/
theorem renameBlock_spec (doc : Doc) (oldLoc newLoc : Str) :
    ((∀ sel ch, Entry.block serverKind sel ch ∈ doc → hasLocation ch oldLoc = false) →
      updateLocation doc oldLoc newLoc = doc ∧
      serialize (updateLocation doc oldLoc newLoc) = serialize doc) ∧
    (oldLoc ≠ newLoc →
      countLocDoc (updateLocation doc oldLoc newLoc) newLoc =
        countLocDoc doc newLoc + countLocDoc doc oldLoc) := by
  constructor
  · intro h
    have heq : updateLocation doc oldLoc newLoc = doc := by
      unfold updateLocation
      exact onServers_eq_self fun sel ch hm => updMap_eq_self newLoc (h sel ch hm)
    exact ⟨heq, by rw [heq]⟩
  · exact countLocDoc_updateLocation doc oldLoc newLoc

/-- C8 witness: renaming an absent selector leaves a concrete document (and
its serialization) unchanged; renaming `/o` to `/n` with a `/n` sibling
already present yields two `/n` locations — no uniqueness re-check. -/
theorem renameBlock_spec_witness :
    (updateLocation [Entry.block serverKind [] [Entry.block locationKind ['/', 'a'] []]]
        ['/', 'z'] ['/', 'n'] =
      [Entry.block serverKind [] [Entry.block locationKind ['/', 'a'] []]] ∧
    serialize (updateLocation [Entry.block serverKind [] [Entry.block locationKind ['/', 'a'] []]]
        ['/', 'z'] ['/', 'n']) =
      serialize [Entry.block serverKind [] [Entry.block locationKind ['/', 'a'] []]]) ∧
    countLocDoc (updateLocation [Entry.block serverKind []
        [Entry.block locationKind ['/', 'o'] [], Entry.block locationKind ['/', 'n'] []]]
        ['/', 'o'] ['/', 'n']) ['/', 'n'] =
      countLocDoc [Entry.block serverKind []
        [Entry.block locationKind ['/', 'o'] [], Entry.block locationKind ['/', 'n'] []]]
        ['/', 'n'] +
      countLocDoc [Entry.block serverKind []
        [Entry.block locationKind ['/', 'o'] [], Entry.block locationKind ['/', 'n'] []]]
        ['/', 'o'] := by
  constructor
  · exact (renameBlock_spec [Entry.block serverKind []
      [Entry.block locationKind ['/', 'a'] []]] ['/', 'z'] ['/', 'n']).1
      (by
        intro sel ch hm
        rw [List.mem_singleton] at hm
        injection hm with h1 h2 h3
        subst h3
        decide)
  · exact (renameBlock_spec [Entry.block serverKind []
      [Entry.block locationKind ['/', 'o'] [], Entry.block locationKind ['/', 'n'] []]]
      ['/', 'o'] ['/', 'n']).2 (by decide)

/-!  Round-trip machinery: comment stripping. -/

theorem stripCommentsGo_no_hash (b : Bool) (s : Str) :
    ∀ c ∈ stripCommentsGo b s, c ≠ hashC := by
  induction s generalizing b with
  | nil => cases b <;> simp [stripCommentsGo]
  | cons c r ih =>
    cases b with
    | true =>
      simp only [stripCommentsGo]
      split
      · intro x hx
        rcases List.mem_cons.mp hx with hx | hx
        · subst hx
          rename_i hcn
          rw [hcn]
          decide
        · exact ih false x hx
      · exact ih true
    | false =>
      simp only [stripCommentsGo]
      split
      · exact ih true
      · intro x hx
        rcases List.mem_cons.mp hx with hx | hx
        · subst hx
          assumption
        · exact ih false x hx

theorem stripComments_no_hash (s : Str) : ∀ c ∈ stripComments s, c ≠ hashC :=
  stripCommentsGo_no_hash false s

theorem stripComments_eq_self {s : Str} (h : ∀ c ∈ s, c ≠ hashC) :
    stripComments s = s := by
  unfold stripComments
  induction s with
  | nil => rfl
  | cons c r ih =>
    have hc : c ≠ hashC := h c (List.mem_cons_self _ _)
    have hr := ih fun x hx => h x (List.mem_cons_of_mem _ hx)
    simp [stripCommentsGo, hc, hr]

/-!  Character classes. -/

theorem isWordChar_eq_true_iff (c : Char) :
    isWordChar c = true ↔
      isWs c = false ∧ ¬c = ';' ∧ ¬c = lbraceC ∧ ¬c = rbraceC ∧ ¬c = quoteC := by
  simp only [isWordChar, Bool.and_eq_true, Bool.not_eq_true', decide_eq_false_iff_not]
  tauto

theorem isWordChar_eq_false_resolve {c : Char} (h : isWordChar c = false)
    (hws : isWs c = false) (hsemi : ¬c = ';') (hlb : ¬c = lbraceC) (hrb : ¬c = rbraceC) :
    c = quoteC := by
  by_contra hq
  have : isWordChar c = true := (isWordChar_eq_true_iff c).mpr ⟨hws, hsemi, hlb, hrb, hq⟩
  rw [this] at h
  exact absurd h (by simp)

theorem isWs_sp : isWs ' ' = true := by decide

/-!  Lexer composition lemmas. -/

theorem lexGo_main_ws {c : Char} (s : Str) (h : isWs c = true) :
    lexGo .main (c :: s) = lexGo .main s := by
  simp [lexGo, h]

theorem lexGo_main_replicate_sp (n : Nat) (s : Str) :
    lexGo .main (List.replicate n ' ' ++ s) = lexGo .main s := by
  induction n with
  | zero => rfl
  | succ n ih =>
    rw [List.replicate_succ, List.cons_append, lexGo_main_ws _ isWs_sp, ih]

theorem lexGo_main_semi (s : Str) :
    lexGo .main (';' :: s) = Option.map (Tok.semi :: ·) (lexGo .main s) := by
  have h : isWs ';' = false := by decide
  simp [lexGo, h]

theorem lexGo_main_lbrace (s : Str) :
    lexGo .main (lbraceC :: s) = Option.map (Tok.lbrace :: ·) (lexGo .main s) := by
  have h1 : isWs lbraceC = false := by decide
  have h2 : ¬lbraceC = ';' := by decide
  simp [lexGo, h1, h2]

theorem lexGo_main_rbrace (s : Str) :
    lexGo .main (rbraceC :: s) = Option.map (Tok.rbrace :: ·) (lexGo .main s) := by
  have h1 : isWs rbraceC = false := by decide
  have h2 : ¬rbraceC = ';' := by decide
  have h3 : ¬rbraceC = lbraceC := by decide
  simp [lexGo, h1, h2, h3]

theorem lexGo_word_delim (s : Str) (acc : Str) (hs : delimHead s) :
    lexGo (.word acc) s = Option.map (Tok.word acc.reverse false :: ·) (lexGo .main s) := by
  cases s with
  | nil => simp [lexGo]
  | cons c r =>
    have hd : isWordChar c = false := hs
    by_cases hws : isWs c
    · simp [lexGo, hd, hws]
    · by_cases hsemi : c = ';'
      · subst hsemi
        simp [lexGo, hd, hws, Option.map_map]
        rfl
      · by_cases hlb : c = lbraceC
        · subst hlb
          simp [lexGo, hd, hws, hsemi, Option.map_map]
          rfl
        · by_cases hrb : c = rbraceC
          · subst hrb
            simp [lexGo, hd, hws, hsemi, hlb, Option.map_map]
            rfl
          · have hq : c = quoteC :=
              isWordChar_eq_false_resolve hd (by simpa using hws) hsemi hlb hrb
            subst hq
            have hws2 : isWs quoteC = false := by decide
            have h2 : ¬quoteC = ';' := by decide
            have h3 : ¬quoteC = lbraceC := by decide
            have h4 : ¬quoteC = rbraceC := by decide
            simp [lexGo, hd, hws2, h2, h3, h4]

theorem lexGo_word_run (w : Str) (s : Str) (acc : Str)
    (hw : ∀ c ∈ w, isWordChar c = true) (hs : delimHead s) :
    lexGo (.word acc) (w ++ s) =
      Option.map (Tok.word (acc.reverse ++ w) false :: ·) (lexGo .main s) := by
  induction w generalizing acc with
  | nil =>
    rw [List.nil_append, lexGo_word_delim s acc hs]
    simp
  | cons c w2 ih =>
    have hc : isWordChar c = true := hw c (List.mem_cons_self _ _)
    have hw2 : ∀ x ∈ w2, isWordChar x = true := fun x hx => hw x (List.mem_cons_of_mem _ hx)
    rw [List.cons_append]
    have hstep : lexGo (.word acc) (c :: (w2 ++ s)) = lexGo (.word (c :: acc)) (w2 ++ s) := by
      simp [lexGo, hc]
    rw [hstep, ih (c :: acc) hw2]
    simp

theorem lexGo_main_word (w : Str) (s : Str) (hne : w ≠ [])
    (hw : ∀ c ∈ w, isWordChar c = true) (hs : delimHead s) :
    lexGo .main (w ++ s) = Option.map (Tok.word w false :: ·) (lexGo .main s) := by
  cases w with
  | nil => exact absurd rfl hne
  | cons c w2 =>
    have hc : isWordChar c = true := hw c (List.mem_cons_self _ _)
    have hcprops := (isWordChar_eq_true_iff c).mp hc
    have hstep : lexGo .main (c :: (w2 ++ s)) = lexGo (.word [c]) (w2 ++ s) := by
      simp [lexGo, hcprops.1, hcprops.2.1, hcprops.2.2.1, hcprops.2.2.2.1, hcprops.2.2.2.2]
    rw [List.cons_append, hstep,
      lexGo_word_run w2 s [c] (fun x hx => hw x (List.mem_cons_of_mem _ hx)) hs]
    simp

theorem lexGo_quote_run (w : Str) (s : Str) (acc : Str) (hw : ∀ c ∈ w, ¬c = quoteC) :
    lexGo (.quote acc) (w ++ quoteC :: s) =
      Option.map (Tok.word (acc.reverse ++ w) true :: ·) (lexGo .main s) := by
  induction w generalizing acc with
  | nil =>
    rw [List.nil_append]
    simp [lexGo]
  | cons c w2 ih =>
    have hc : ¬c = quoteC := hw c (List.mem_cons_self _ _)
    have hstep : lexGo (.quote acc) (c :: (w2 ++ quoteC :: s)) =
        lexGo (.quote (c :: acc)) (w2 ++ quoteC :: s) := by
      simp [lexGo, hc]
    rw [List.cons_append, hstep, ih (c :: acc) fun x hx => hw x (List.mem_cons_of_mem _ hx)]
    simp

theorem lexGo_main_quoted (w : Str) (s : Str) (hw : ∀ c ∈ w, ¬c = quoteC) :
    lexGo .main (quoteC :: (w ++ quoteC :: s)) =
      Option.map (Tok.word w true :: ·) (lexGo .main s) := by
  have h1 : isWs quoteC = false := by decide
  have h2 : ¬quoteC = ';' := by decide
  have h3 : ¬quoteC = lbraceC := by decide
  have h4 : ¬quoteC = rbraceC := by decide
  have hstep : lexGo .main (quoteC :: (w ++ quoteC :: s)) =
      lexGo (.quote []) (w ++ quoteC :: s) := by
    simp [lexGo, h1, h2, h3, h4]
  rw [hstep, lexGo_quote_run w s [] hw]
  simp

theorem quoteNeeded_nil : quoteNeeded [] = false := rfl

theorem okVal_wordChar {v : Str} (hv : okVal v) (hq : quoteNeeded v = false) :
    ∀ c ∈ v, isWordChar c = true := by
  intro c hc
  have hq2 := hq
  unfold quoteNeeded at hq2
  rw [List.any_eq_false] at hq2
  have hcls := hq2 c hc
  simp only [Bool.or_eq_true, decide_eq_true_eq, not_or] at hcls
  obtain ⟨⟨⟨h1, h2⟩, h3⟩, h4⟩ := hcls
  exact (isWordChar_eq_true_iff c).mpr ⟨by simpa using h1, h2, h3, h4, (hv c hc).1⟩

theorem lexGo_main_renderValue (v : Str) (s : Str) (hv : okVal v) (hs : delimHead s) :
    lexGo .main (renderValue v ++ s) =
      Option.map (fun ts => valToks v ++ ts) (lexGo .main s) := by
  by_cases hq : quoteNeeded v = true
  · have hvne : v ≠ [] := by
      intro hnil
      rw [hnil, quoteNeeded_nil] at hq
      exact absurd hq (by simp)
    unfold renderValue valToks
    rw [if_pos hq, if_neg hvne, hq]
    have hsh : (quoteC :: v ++ [quoteC]) ++ s = quoteC :: (v ++ quoteC :: s) := by simp
    rw [hsh, lexGo_main_quoted v s fun c hc => (hv c hc).1]
    rfl
  · have hq2 : quoteNeeded v = false := by simpa using hq
    by_cases hvn : v = []
    · subst hvn
      unfold renderValue valToks
      simp [quoteNeeded_nil]
    · unfold renderValue valToks
      rw [hq2]
      simp only [Bool.false_eq_true, if_false, if_neg hvn]
      rw [lexGo_main_word v s hvn (okVal_wordChar hv hq2) hs]
      rfl

theorem flats_cons (e : Entry) (es : List Entry) : flats (e :: es) = flatE e ++ flats es := by
  simp [flats]

theorem flats_nil : flats [] = [] := by
  simp [flats]

theorem two_le_flatE (e : Entry) : 2 ≤ (flatE e).length := by
  cases e <;> simp [flatE] <;> omega

theorem three_le_flatE_block (kind sel : Str) (ch : List Entry) :
    3 ≤ (flatE (Entry.block kind sel ch)).length := by
  simp [flatE] <;> omega

theorem flatE_block_le (kind sel : Str) (ch : List Entry) :
    (flats ch).length + 3 ≤ (flatE (Entry.block kind sel ch)).length := by
  simp [flatE] <;> omega

theorem one_le_sizeOf_entry (e : Entry) : 1 ≤ sizeOf e := by
  cases e <;> simp <;> omega

theorem valToks_nil : valToks [] = [] := rfl

theorem lexGo_main_nl (s : Str) : lexGo .main ('\n' :: s) = lexGo .main s :=
  lexGo_main_ws s (by decide)

theorem lexGo_main_word_sp (w : Str) (X : Str) (hne : w ≠ [])
    (hw : ∀ c ∈ w, isWordChar c = true) :
    lexGo .main (w ++ ' ' :: X) = Option.map (Tok.word w false :: ·) (lexGo .main X) := by
  have hd : delimHead (' ' :: X) := by
    simp only [delimHead]
    decide
  rw [lexGo_main_word w (' ' :: X) hne hw hd, lexGo_main_ws X (by decide)]

theorem lexGo_main_renderValue_semi (v : Str) (X : Str) (hv : okVal v) :
    lexGo .main (renderValue v ++ ';' :: X) =
      Option.map (fun ts => valToks v ++ Tok.semi :: ts) (lexGo .main X) := by
  have hd : delimHead (';' :: X) := by
    simp only [delimHead]
    decide
  rw [lexGo_main_renderValue v (';' :: X) hv hd, lexGo_main_semi X, Option.map_map]
  rfl

theorem lexGo_main_renderValue_sp (v : Str) (X : Str) (hv : okVal v) :
    lexGo .main (renderValue v ++ ' ' :: X) =
      Option.map (fun ts => valToks v ++ ts) (lexGo .main X) := by
  have hd : delimHead (' ' :: X) := by
    simp only [delimHead]
    decide
  rw [lexGo_main_renderValue v (' ' :: X) hv hd, lexGo_main_ws X (by decide)]

theorem mem_renderValue_no_hash {v : Str} (hv : okVal v) :
    ∀ c ∈ renderValue v, c ≠ hashC := by
  intro c hc
  unfold renderValue at hc
  split at hc
  · simp only [List.cons_append, List.mem_cons, List.mem_append, List.mem_singleton,
      List.not_mem_nil, or_false, false_or, or_assoc] at hc
    rcases hc with hc | hc | hc
    · subst hc
      decide
    · exact (hv c hc).2
    · subst hc
      decide
  · exact (hv c hc).2

theorem mem_indentStr {lvl : Nat} {c : Char} (hc : c ∈ indentStr lvl) : c = ' ' :=
  (List.mem_replicate.mp hc).2

/-- Serialized well-formed trees contain no `#`, so comment stripping leaves
them unchanged. -/
theorem serializeEntries_no_hash :
    ∀ (N : Nat) (es : List Entry) (lvl : Nat), sizeOf es ≤ N → (∀ e ∈ es, WFE e) →
      ∀ c ∈ serializeEntries lvl es, c ≠ hashC := by
  intro N
  induction N with
  | zero =>
    intro es lvl hN _
    exfalso
    cases es <;> simp at hN
  | succ N ih =>
    intro es lvl hN hwf
    cases es with
    | nil =>
      intro c hc
      simp [serializeEntries] at hc
    | cons e es2 =>
      have hsize2 : sizeOf es2 ≤ N := by
        have h1 := one_le_sizeOf_entry e
        simp only [List.cons.sizeOf_spec] at hN
        omega
      have hwf2 : ∀ x ∈ es2, WFE x := fun x hx => hwf x (List.mem_cons_of_mem _ hx)
      intro c hc
      rw [show serializeEntries lvl (e :: es2) =
        serializeEntry lvl e ++ serializeEntries lvl es2 from by simp [serializeEntries]] at hc
      rcases List.mem_append.mp hc with hc | hc
      · have hwfe := hwf e (List.mem_cons_self _ _)
        cases e with
        | directive k v =>
          cases hwfe with
          | directive hk hv =>
            simp only [serializeEntry, List.mem_append, List.mem_cons, List.mem_singleton,
              List.not_mem_nil, or_false, false_or, or_assoc] at hc
            rcases hc with hc | hc | hc | hc | hc | hc
            · rw [mem_indentStr hc]
              decide
            · exact (hk.2 c hc).2
            · subst hc
              decide
            · exact mem_renderValue_no_hash hv c hc
            · subst hc
              decide
            · subst hc
              decide
        | block kind sel ch =>
          cases hwfe with
          | block hk hv hch =>
            have hsizech : sizeOf ch ≤ N := by
              simp only [List.cons.sizeOf_spec, Entry.block.sizeOf_spec] at hN
              omega
            simp only [serializeEntry, List.mem_append, List.mem_cons, List.mem_singleton,
              List.not_mem_nil, or_false, false_or, or_assoc] at hc
            rcases hc with hc | hc | hc | hc | hc | hc | hc | hc | hc | hc
            · rw [mem_indentStr hc]
              decide
            · exact (hk.2 c hc).2
            · split at hc
              · simp at hc
              · rcases List.mem_cons.mp hc with hc | hc
                · subst hc
                  decide
                · exact mem_renderValue_no_hash hv c hc
            · subst hc
              decide
            · subst hc
              decide
            · subst hc
              decide
            · exact ih ch (lvl + 1) hsizech hch c hc
            · rw [mem_indentStr hc]
              decide
            · subst hc
              decide
            · subst hc
              decide
      · exact ih es2 lvl hsize2 hwf2 c hc

/-- Lexing a serialized well-formed child list yields its token stream, in
front of whatever the continuation lexes to. -/
theorem serializeEntries_lex :
    ∀ (N : Nat) (es : List Entry) (lvl : Nat) (s : Str),
      sizeOf es ≤ N → (∀ e ∈ es, WFE e) →
      lexGo .main (serializeEntries lvl es ++ s) =
        Option.map (fun ts => flats es ++ ts) (lexGo .main s) := by
  intro N
  induction N with
  | zero =>
    intro es lvl s hN _
    exfalso
    cases es <;> simp at hN
  | succ N ih =>
    intro es lvl s hN hwf
    cases es with
    | nil =>
      simp [serializeEntries, flats_nil]
    | cons e es2 =>
      have hsize2 : sizeOf es2 ≤ N := by
        have h1 := one_le_sizeOf_entry e
        simp only [List.cons.sizeOf_spec] at hN
        omega
      have hwf2 : ∀ x ∈ es2, WFE x := fun x hx => hwf x (List.mem_cons_of_mem _ hx)
      have hwfe := hwf e (List.mem_cons_self _ _)
      cases e with
      | directive k v =>
        cases hwfe with
        | directive hk hv =>
          have hkwc : ∀ c ∈ k, isWordChar c = true := fun c hc => (hk.2 c hc).1
          rw [show serializeEntries lvl (Entry.directive k v :: es2) =
            serializeEntry lvl (Entry.directive k v) ++ serializeEntries lvl es2 from by
              simp [serializeEntries]]
          simp only [serializeEntry, indentStr, List.append_assoc, List.cons_append,
            List.nil_append]
          rw [lexGo_main_replicate_sp]
          rw [lexGo_main_word_sp k _ hk.1 hkwc]
          rw [lexGo_main_renderValue_semi v _ hv]
          rw [lexGo_main_nl]
          rw [ih es2 lvl s hsize2 hwf2]
          cases hX : lexGo .main s with
          | none => simp
          | some ts => simp [flats_cons, flatE, List.append_assoc]
      | block kind sel ch =>
        cases hwfe with
        | block hk hv hch =>
          have hkwc : ∀ c ∈ kind, isWordChar c = true := fun c hc => (hk.2 c hc).1
          have hsizech : sizeOf ch ≤ N := by
            simp only [List.cons.sizeOf_spec, Entry.block.sizeOf_spec] at hN
            omega
          rw [show serializeEntries lvl (Entry.block kind sel ch :: es2) =
            serializeEntry lvl (Entry.block kind sel ch) ++ serializeEntries lvl es2 from by
              simp [serializeEntries]]
          by_cases hsel : sel = []
          · subst hsel
            simp only [serializeEntry, indentStr, List.append_assoc,
              List.cons_append, List.nil_append, if_true]
            rw [lexGo_main_replicate_sp]
            rw [lexGo_main_word_sp kind _ hk.1 hkwc]
            rw [lexGo_main_lbrace]
            rw [lexGo_main_nl]
            rw [ih ch (lvl + 1) _ hsizech hch]
            rw [lexGo_main_replicate_sp]
            rw [lexGo_main_rbrace]
            rw [lexGo_main_nl]
            rw [ih es2 lvl s hsize2 hwf2]
            cases hX : lexGo .main s with
            | none => simp
            | some ts => simp [flats_cons, flatE, valToks_nil, List.append_assoc]
          · simp only [serializeEntry, indentStr, if_neg hsel, List.append_assoc,
              List.cons_append, List.nil_append]
            rw [lexGo_main_replicate_sp]
            rw [lexGo_main_word_sp kind _ hk.1 hkwc]
            rw [lexGo_main_renderValue_sp sel _ hv]
            rw [lexGo_main_lbrace]
            rw [lexGo_main_nl]
            rw [ih ch (lvl + 1) _ hsizech hch]
            rw [lexGo_main_replicate_sp]
            rw [lexGo_main_rbrace]
            rw [lexGo_main_nl]
            rw [ih es2 lvl s hsize2 hwf2]
            cases hX : lexGo .main s with
            | none => simp
            | some ts => simp [flats_cons, flatE, List.append_assoc]

theorem joinSp_valWords (v : Str) : joinSp (valWords v) = v := by
  unfold valWords
  by_cases hv : v = []
  · subst hv
    rfl
  · rw [if_neg hv]
    rfl

theorem isWordChar_ne_quote {c : Char} (h : isWordChar c = true) : c ≠ quoteC :=
  ((isWordChar_eq_true_iff c).mp h).2.2.2.2

theorem joinSp_okVal {ws : List Str}
    (h : ∀ w ∈ ws, ∀ c ∈ w, c ≠ quoteC ∧ c ≠ hashC) : okVal (joinSp ws) := by
  induction ws with
  | nil =>
    intro c hc
    simp [joinSp] at hc
  | cons w ws2 ih =>
    cases ws2 with
    | nil =>
      intro c hc
      exact h w (List.mem_cons_self _ _) c hc
    | cons w2 ws3 =>
      intro c hc
      rw [show joinSp (w :: w2 :: ws3) = w ++ ' ' :: joinSp (w2 :: ws3) from rfl] at hc
      rcases List.mem_append.mp hc with hc | hc
      · exact h w (List.mem_cons_self _ _) c hc
      · rcases List.mem_cons.mp hc with hc | hc
        · subst hc
          exact ⟨by decide, by decide⟩
        · exact ih (fun x hx => h x (List.mem_cons_of_mem _ hx)) c hc

theorem collectWords_ok :
    ∀ (toks : List Tok), (∀ t ∈ toks, TokOk t) →
      (∀ w ∈ (collectWords toks).1, ∀ c ∈ w, c ≠ quoteC ∧ c ≠ hashC) ∧
      (∀ t ∈ (collectWords toks).2, TokOk t) := by
  intro toks
  induction toks with
  | nil =>
    intro _
    exact ⟨by simp [collectWords], by simp [collectWords]⟩
  | cons t rest ih =>
    intro h
    have hrest := ih fun x hx => h x (List.mem_cons_of_mem _ hx)
    cases t with
    | word w q =>
      have ht : TokOk (Tok.word w q) := h _ (List.mem_cons_self _ _)
      constructor
      · intro x hx c hc
        rw [show collectWords (Tok.word w q :: rest) =
          ((w :: (collectWords rest).1), (collectWords rest).2) from by
            simp [collectWords]] at hx
        rcases List.mem_cons.mp hx with hx | hx
        · subst hx
          cases q with
          | false => exact ⟨isWordChar_ne_quote (ht.2 c hc).1, (ht.2 c hc).2⟩
          | true => exact ht c hc
        · exact hrest.1 x hx c hc
      · intro x hx
        rw [show collectWords (Tok.word w q :: rest) =
          ((w :: (collectWords rest).1), (collectWords rest).2) from by
            simp [collectWords]] at hx
        exact hrest.2 x hx
    | semi => exact ⟨by simp [collectWords], fun x hx => h x hx⟩
    | lbrace => exact ⟨by simp [collectWords], fun x hx => h x hx⟩
    | rbrace => exact ⟨by simp [collectWords], fun x hx => h x hx⟩

theorem collectWords_valToks (v : Str) (t : Tok) (r : List Tok)
    (ht : ∀ w q, t ≠ Tok.word w q) :
    collectWords (valToks v ++ t :: r) = (valWords v, t :: r) := by
  have hstop : collectWords (t :: r) = ([], t :: r) := by
    cases t with
    | word w q => exact absurd rfl (ht w q)
    | semi => rfl
    | lbrace => rfl
    | rbrace => rfl
  unfold valToks valWords
  by_cases hv : v = []
  · rw [if_pos hv, if_pos hv, List.nil_append, hstop]
  · rw [if_neg hv, if_neg hv, List.cons_append, List.nil_append]
    simp [collectWords, hstop]

theorem lexGo_main_quote_start (s : Str) :
    lexGo .main (quoteC :: s) = lexGo (.quote []) s := by
  have h1 : isWs quoteC = false := by decide
  have h2 : ¬quoteC = ';' := by decide
  have h3 : ¬quoteC = lbraceC := by decide
  have h4 : ¬quoteC = rbraceC := by decide
  simp [lexGo, h1, h2, h3, h4]

/-- The lexer, run on `#`-free input from a well-formed state, produces only
well-formed tokens. -/
theorem lexGo_tokOk :
    ∀ (s : Str) (st : LexState) (ts : List Tok), (∀ c ∈ s, c ≠ hashC) → stateOk st →
      lexGo st s = some ts → ∀ t ∈ ts, TokOk t := by
  intro s
  induction s with
  | nil =>
    intro st ts _ hst hlex
    cases st with
    | main =>
      simp only [lexGo] at hlex
      injection hlex with h
      subst h
      intro t ht
      simp at ht
    | quote acc => simp [lexGo] at hlex
    | word acc =>
      simp only [lexGo] at hlex
      injection hlex with h
      subst h
      intro t ht
      rw [List.mem_singleton] at ht
      subst ht
      exact ⟨by simpa using hst.1, fun c hc => hst.2 c (List.mem_reverse.mp hc)⟩
  | cons c r ih =>
    intro st ts hhash hst hlex
    have hc : c ≠ hashC := hhash c (List.mem_cons_self _ _)
    have hr : ∀ x ∈ r, x ≠ hashC := fun x hx => hhash x (List.mem_cons_of_mem _ hx)
    cases st with
    | main =>
      by_cases hws : isWs c = true
      · rw [lexGo_main_ws r hws] at hlex
        exact ih .main ts hr trivial hlex
      · have hwsf : isWs c = false := by simpa using hws
        by_cases hsemi : c = ';'
        · subst hsemi
          rw [lexGo_main_semi r] at hlex
          rcases Option.map_eq_some'.mp hlex with ⟨ts2, hts2, hmap⟩
          subst hmap
          intro t ht
          rcases List.mem_cons.mp ht with rfl | ht
          · trivial
          · exact ih .main ts2 hr trivial hts2 t ht
        · by_cases hlb : c = lbraceC
          · subst hlb
            rw [lexGo_main_lbrace r] at hlex
            rcases Option.map_eq_some'.mp hlex with ⟨ts2, hts2, hmap⟩
            subst hmap
            intro t ht
            rcases List.mem_cons.mp ht with rfl | ht
            · trivial
            · exact ih .main ts2 hr trivial hts2 t ht
          · by_cases hrb : c = rbraceC
            · subst hrb
              rw [lexGo_main_rbrace r] at hlex
              rcases Option.map_eq_some'.mp hlex with ⟨ts2, hts2, hmap⟩
              subst hmap
              intro t ht
              rcases List.mem_cons.mp ht with rfl | ht
              · trivial
              · exact ih .main ts2 hr trivial hts2 t ht
            · by_cases hq : c = quoteC
              · subst hq
                rw [lexGo_main_quote_start r] at hlex
                exact ih (.quote []) ts hr (fun x hx => absurd hx (List.not_mem_nil x)) hlex
              · have hwc : isWordChar c = true :=
                  (isWordChar_eq_true_iff c).mpr ⟨hwsf, hsemi, hlb, hrb, hq⟩
                rw [show lexGo .main (c :: r) = lexGo (.word [c]) r from by
                  simp [lexGo, hwsf, hsemi, hlb, hrb, hq]] at hlex
                refine ih (.word [c]) ts hr ⟨by simp, ?_⟩ hlex
                intro x hx
                rw [List.mem_singleton] at hx
                subst hx
                exact ⟨hwc, hc⟩
    | quote acc =>
      by_cases hq : c = quoteC
      · subst hq
        rw [show lexGo (.quote acc) (quoteC :: r) =
          Option.map (Tok.word acc.reverse true :: ·) (lexGo .main r) from by
            simp [lexGo]] at hlex
        rcases Option.map_eq_some'.mp hlex with ⟨ts2, hts2, hmap⟩
        subst hmap
        intro t ht
        rcases List.mem_cons.mp ht with rfl | ht
        · exact fun x hx => hst x (List.mem_reverse.mp hx)
        · exact ih .main ts2 hr trivial hts2 t ht
      · rw [show lexGo (.quote acc) (c :: r) = lexGo (.quote (c :: acc)) r from by
          simp [lexGo, hq]] at hlex
        refine ih (.quote (c :: acc)) ts hr ?_ hlex
        intro x hx
        rcases List.mem_cons.mp hx with rfl | hx
        · exact ⟨hq, hc⟩
        · exact hst x hx
    | word acc =>
      have hmk : TokOk (Tok.word acc.reverse false) :=
        ⟨by simpa using hst.1, fun x hx => hst.2 x (List.mem_reverse.mp hx)⟩
      by_cases hwc : isWordChar c = true
      · rw [show lexGo (.word acc) (c :: r) = lexGo (.word (c :: acc)) r from by
          simp [lexGo, hwc]] at hlex
        refine ih (.word (c :: acc)) ts hr ⟨by simp, ?_⟩ hlex
        intro x hx
        rcases List.mem_cons.mp hx with rfl | hx
        · exact ⟨hwc, hc⟩
        · exact hst.2 x hx
      · have hwcf : isWordChar c = false := by simpa using hwc
        by_cases hws : isWs c = true
        · rw [show lexGo (.word acc) (c :: r) =
            Option.map (Tok.word acc.reverse false :: ·) (lexGo .main r) from by
              simp [lexGo, hwcf, hws]] at hlex
          rcases Option.map_eq_some'.mp hlex with ⟨ts2, hts2, hmap⟩
          subst hmap
          intro t ht
          rcases List.mem_cons.mp ht with rfl | ht
          · exact hmk
          · exact ih .main ts2 hr trivial hts2 t ht
        · have hwsf : isWs c = false := by simpa using hws
          by_cases hsemi : c = ';'
          · subst hsemi
            rw [show lexGo (.word acc) (';' :: r) =
              Option.map (fun l => Tok.word acc.reverse false :: Tok.semi :: l)
                (lexGo .main r) from by simp [lexGo, hwcf, hwsf]] at hlex
            rcases Option.map_eq_some'.mp hlex with ⟨ts2, hts2, hmap⟩
            subst hmap
            intro t ht
            rcases List.mem_cons.mp ht with rfl | ht
            · exact hmk
            · rcases List.mem_cons.mp ht with rfl | ht
              · trivial
              · exact ih .main ts2 hr trivial hts2 t ht
          · by_cases hlb : c = lbraceC
            · subst hlb
              rw [show lexGo (.word acc) (lbraceC :: r) =
                Option.map (fun l => Tok.word acc.reverse false :: Tok.lbrace :: l)
                  (lexGo .main r) from by simp [lexGo, hwcf, hwsf, hsemi]] at hlex
              rcases Option.map_eq_some'.mp hlex with ⟨ts2, hts2, hmap⟩
              subst hmap
              intro t ht
              rcases List.mem_cons.mp ht with rfl | ht
              · exact hmk
              · rcases List.mem_cons.mp ht with rfl | ht
                · trivial
                · exact ih .main ts2 hr trivial hts2 t ht
            · by_cases hrb : c = rbraceC
              · subst hrb
                rw [show lexGo (.word acc) (rbraceC :: r) =
                  Option.map (fun l => Tok.word acc.reverse false :: Tok.rbrace :: l)
                    (lexGo .main r) from by simp [lexGo, hwcf, hwsf, hsemi, hlb]] at hlex
                rcases Option.map_eq_some'.mp hlex with ⟨ts2, hts2, hmap⟩
                subst hmap
                intro t ht
                rcases List.mem_cons.mp ht with rfl | ht
                · exact hmk
                · rcases List.mem_cons.mp ht with rfl | ht
                  · trivial
                  · exact ih .main ts2 hr trivial hts2 t ht
              · rw [show lexGo (.word acc) (c :: r) =
                  Option.map (Tok.word acc.reverse false :: ·) (lexGo (.quote []) r) from by
                    simp [lexGo, hwcf, hwsf, hsemi, hlb, hrb]] at hlex
                rcases Option.map_eq_some'.mp hlex with ⟨ts2, hts2, hmap⟩
                subst hmap
                intro t ht
                rcases List.mem_cons.mp ht with rfl | ht
                · exact hmk
                · exact ih (.quote []) ts2 hr
                    (fun x hx => absurd hx (List.not_mem_nil x)) hts2 t ht

/-- Parsing well-formed tokens yields well-formed entries, and the leftover
tokens are still well-formed. -/
theorem parseEntries_sound :
    ∀ (n : Nat) (toks : List Tok) (es : List Entry) (rest : List Tok),
      (∀ t ∈ toks, TokOk t) → parseEntries n toks = some (es, rest) →
      (∀ e ∈ es, WFE e) ∧ (∀ t ∈ rest, TokOk t) := by
  intro n
  induction n with
  | zero =>
    intro toks es rest _ hpe
    simp [parseEntries] at hpe
  | succ n ih =>
    intro toks es rest htoks hpe
    cases toks with
    | nil =>
      simp only [parseEntries] at hpe
      injection hpe with h
      injection h with h1 h2
      subst h1
      subst h2
      exact ⟨by simp, by simp⟩
    | cons t r =>
      have hr : ∀ x ∈ r, TokOk x := fun x hx => htoks x (List.mem_cons_of_mem _ hx)
      cases t with
      | rbrace =>
        simp only [parseEntries] at hpe
        injection hpe with h
        injection h with h1 h2
        subst h1
        subst h2
        exact ⟨by simp, htoks⟩
      | semi => simp [parseEntries] at hpe
      | lbrace => simp [parseEntries] at hpe
      | word k q =>
        cases q with
        | true => simp [parseEntries] at hpe
        | false =>
          have hk : TokOk (Tok.word k false) := htoks _ (List.mem_cons_self _ _)
          have hcwAll := collectWords_ok r hr
          simp only [parseEntries] at hpe
          split at hpe
          · rename_i ws rest2 heq
            rw [heq] at hcwAll
            have hr2 : ∀ x ∈ rest2, TokOk x := fun x hx =>
              hcwAll.2 x (List.mem_cons_of_mem _ hx)
            split at hpe
            · rename_i es2 rest3 heq2
              injection hpe with h
              injection h with h1 h2
              subst h2
              subst h1
              have hsub := ih rest2 es2 rest3 hr2 heq2
              refine ⟨?_, hsub.2⟩
              intro e he
              rcases List.mem_cons.mp he with rfl | he
              · exact WFE.directive hk (joinSp_okVal hcwAll.1)
              · exact hsub.1 e he
            · simp at hpe
          · rename_i ws rest2 heq
            rw [heq] at hcwAll
            have hr2 : ∀ x ∈ rest2, TokOk x := fun x hx =>
              hcwAll.2 x (List.mem_cons_of_mem _ hx)
            split at hpe
            · rename_i ch rest3 heq2
              have hsub := ih rest2 ch (Tok.rbrace :: rest3) hr2 heq2
              have hr3 : ∀ x ∈ rest3, TokOk x := fun x hx =>
                hsub.2 x (List.mem_cons_of_mem _ hx)
              split at hpe
              · rename_i es2 rest4 heq3
                injection hpe with h
                injection h with h1 h2
                subst h2
                subst h1
                have hsub2 := ih rest3 es2 rest4 hr3 heq3
                refine ⟨?_, hsub2.2⟩
                intro e he
                rcases List.mem_cons.mp he with rfl | he
                · exact WFE.block hk (joinSp_okVal hcwAll.1) hsub.1
                · exact hsub2.1 e he
              · simp at hpe
            · simp at hpe
          · simp at hpe

theorem parseEntries_step_semi (n : Nat) (k v : Str) (Z : List Tok) :
    parseEntries (n + 1) (Tok.word k false :: (valToks v ++ Tok.semi :: Z)) =
      match parseEntries n Z with
      | some (es, r) => some (Entry.directive k (joinSp (valWords v)) :: es, r)
      | none => none := by
  simp only [parseEntries]
  rw [collectWords_valToks v Tok.semi Z (by intro w q h; cases h)]

theorem parseEntries_step_lbrace (n : Nat) (k sel : Str) (Z : List Tok) :
    parseEntries (n + 1) (Tok.word k false :: (valToks sel ++ Tok.lbrace :: Z)) =
      match parseEntries n Z with
      | some (ch, Tok.rbrace :: rest3) =>
        match parseEntries n rest3 with
        | some (es, r) => some (Entry.block k (joinSp (valWords sel)) ch :: es, r)
        | none => none
      | _ => none := by
  simp only [parseEntries]
  rw [collectWords_valToks sel Tok.lbrace Z (by intro w q h; cases h)]

/-- The token stream of a serialized well-formed child list parses back to
exactly that child list, leaving an empty or closing-brace continuation. -/
theorem parseEntries_complete :
    ∀ (n : Nat) (es : List Entry) (rest : List Tok),
      (∀ e ∈ es, WFE e) → (rest = [] ∨ ∃ r2, rest = Tok.rbrace :: r2) →
      (flats es).length < n →
      parseEntries n (flats es ++ rest) = some (es, rest) := by
  intro n
  induction n with
  | zero =>
    intro es rest _ _ hlen
    omega
  | succ n ih =>
    intro es rest hwf hrest hlen
    cases es with
    | nil =>
      rw [flats_nil, List.nil_append]
      rcases hrest with rfl | ⟨r2, rfl⟩
      · rfl
      · rfl
    | cons e es2 =>
      have hwf2 : ∀ x ∈ es2, WFE x := fun x hx => hwf x (List.mem_cons_of_mem _ hx)
      have hwfe := hwf e (List.mem_cons_self _ _)
      cases e with
      | directive k v =>
        have hlen2 : (flats es2).length < n := by
          have h2 := two_le_flatE (Entry.directive k v)
          rw [flats_cons, List.length_append] at hlen
          omega
        rw [flats_cons, List.append_assoc]
        rw [show flatE (Entry.directive k v) ++ (flats es2 ++ rest) =
          Tok.word k false :: (valToks v ++ Tok.semi :: (flats es2 ++ rest)) from by
            simp [flatE]]
        rw [parseEntries_step_semi]
        rw [ih es2 rest hwf2 hrest hlen2]
        simp [joinSp_valWords]
      | block kind sel ch =>
        cases hwfe with
        | block hk hv hch =>
          have hlen2 : (flats es2).length < n := by
            have h2 := two_le_flatE (Entry.block kind sel ch)
            rw [flats_cons, List.length_append] at hlen
            omega
          have hlench : (flats ch).length < n := by
            have h3 := flatE_block_le kind sel ch
            rw [flats_cons, List.length_append] at hlen
            omega
          rw [flats_cons, List.append_assoc]
          rw [show flatE (Entry.block kind sel ch) ++ (flats es2 ++ rest) =
            Tok.word kind false ::
              (valToks sel ++ Tok.lbrace :: (flats ch ++ Tok.rbrace :: (flats es2 ++ rest)))
            from by simp [flatE]]
          rw [parseEntries_step_lbrace]
          rw [ih ch (Tok.rbrace :: (flats es2 ++ rest)) hch
            (Or.inr ⟨flats es2 ++ rest, rfl⟩) hlench]
          show (match parseEntries n (flats es2 ++ rest) with
            | some (es3, r) => some (Entry.block kind (joinSp (valWords sel)) ch :: es3, r)
            | none => none) = some (Entry.block kind sel ch :: es2, rest)
          rw [ih es2 rest hwf2 hrest hlen2]
          simp [joinSp_valWords]

/-- C1: for any text accepted by the parser, serializing the parsed tree and
re-parsing yields exactly the same tree (comments are stripped by parsing
and therefore excluded on both sides).  The parser and serializer are
modelled from spec §4.1/§4.4/§6 because they live in the external nginx-conf
dependency, outside this repository. -/
theorem parse_serialize_roundTrip (text : Str) (d : Doc) (h : parse text = some d) :
    parse (serialize d) = some d := by
  unfold parse at h
  rcases hlex : lexGo .main (stripComments text) with _ | toks
  · rw [hlex] at h
    simp at h
  · rw [hlex] at h
    have h2 : (match parseEntries (toks.length + 1) toks with
      | some (es, []) => some es
      | _ => none) = some d := h
    clear h
    rcases hpe : parseEntries (toks.length + 1) toks with _ | ⟨es, rest⟩
    · rw [hpe] at h2
      simp at h2
    · rw [hpe] at h2
      cases rest with
      | cons t r => simp at h2
      | nil =>
        simp only [Option.some.injEq] at h2
        subst h2
        have htoksOk : ∀ t ∈ toks, TokOk t :=
          lexGo_tokOk (stripComments text) .main toks (stripComments_no_hash text)
            trivial hlex
        have hwf : ∀ e ∈ es, WFE e :=
          (parseEntries_sound (toks.length + 1) toks es [] htoksOk hpe).1
        have hnh : ∀ c ∈ serialize es, c ≠ hashC :=
          serializeEntries_no_hash (sizeOf es) es 0 le_rfl hwf
        have hlex2 : lexGo .main (serialize es) = some (flats es) := by
          have hx := serializeEntries_lex (sizeOf es) es 0 [] le_rfl hwf
          rw [List.append_nil] at hx
          unfold serialize
          rw [hx]
          simp [lexGo]
        unfold parse
        rw [stripComments_eq_self hnh, hlex2]
        have hcomp := parseEntries_complete ((flats es).length + 1) es [] hwf
          (Or.inl rfl) (by omega)
        rw [List.append_nil] at hcomp
        show (match parseEntries ((flats es).length + 1) (flats es) with
          | some (es2, []) => some es2
          | _ => none) = some es
        rw [hcomp]

/-- C1 witness: a concrete accepted text (a server block with one directive
and a comment) whose parse, serialization and re-parse agree. -/
theorem parse_serialize_roundTrip_witness :
    parse ['s', 'e', 'r', 'v', 'e', 'r', ' ', lbraceC, '\n',
        ' ', 'a', ' ', 'b', ';', ' ', hashC, 'c', '\n', rbraceC, '\n'] =
      some [Entry.block serverKind [] [Entry.directive ['a'] ['b']]] ∧
    parse (serialize [Entry.block serverKind [] [Entry.directive ['a'] ['b']]]) =
      some [Entry.block serverKind [] [Entry.directive ['a'] ['b']]] :=
  ⟨rfl, parse_serialize_roundTrip
    ['s', 'e', 'r', 'v', 'e', 'r', ' ', lbraceC, '\n',
      ' ', 'a', ' ', 'b', ';', ' ', hashC, 'c', '\n', rbraceC, '\n']
    [Entry.block serverKind [] [Entry.directive ['a'] ['b']]] rfl⟩

end NginxBM
